import Mathlib

/-!
Shallow embedding of the check-execution core of `bioconda_utils/linting.py`
(the `lint` function and its report construction), together with theorems
about its skip resolution, error handling, ordering and report shape.

External collaborators (`Recipe.from_file`, `utils.load_all_meta`) are
modelled as components of an environment record: `lint` only observes their
success-or-failure result, which is exactly the interface the source uses.
-/

deriving instance DecidableEq for Except

namespace BiocondaLint

/-- Values that can appear inside a diagnostic payload dict.  `tag` stands
for a Python class object (the source stores `type(exc)` under `_exc`);
`strList` stands for a tuple/list of strings (`exc.args`). -/
inductive Value where
  | str (s : String)
  | nat (n : Nat)
  | none
  | tag (s : String)
  | strList (l : List String)
deriving DecidableEq, Repr

/-- A diagnostic payload: the ordered key/value items of the Python dict
returned by a check function or built for an error diagnostic. -/
abbrev Payload := List (String × Value)

/-- First-occurrence lookup of a key in a payload, as Python dict access. -/
def lookupPayload (k : String) : Payload → Option Value
  | [] => Option.none
  | (k', v) :: rest => if k' = k then some v else lookupPayload k rest

/-- Failure raised by `Recipe.from_file`: a `RecipeError` with its string
rendering and the optional `line` attribute read by `getattr(exc, 'line', None)`. -/
structure RecipeErr where
  msg : String
  line : Option Nat
deriving DecidableEq, Repr

/-- Failure raised while loading metadata variants (a yaml `ScannerError`,
`ConstructorError` or `SystemExit`): its string rendering, the class name,
the optional `code` attribute and the `args` tuple. -/
structure ParseErr where
  msg : String
  excType : String
  code : Option Value
  args : List String
deriving DecidableEq, Repr

/-- The recipe handle built by `Recipe.from_file`; checks receive it opaquely. -/
structure RecipeData where
  id : String
deriving DecidableEq, Repr

/-- One parsed metadata variant.  `skipLints` is the value of
`meta.get_value('extra/skip-lints', [])`. -/
structure Meta where
  skipLints : List String
deriving DecidableEq, Repr

/-- The two platforms the source iterates (`["linux", "osx"]`). -/
inductive Platform where
  | linux
  | osx
deriving DecidableEq, Repr

/-- A registered check function: its `__name__` and its behaviour.  A raised
exception is modelled as `Except.error`; returning a falsy value (`None` or
an empty dict) is modelled as `Except.ok []`. -/
structure Check where
  name : String
  run : RecipeData → List Meta → Except String Payload

/-- One entry of the `hits` list: the diagnostic dict.  `severity` is `some`
only when the source puts a `'severity'` key into the dict (error hits). -/
structure Hit where
  recipe : String
  check : String
  severity : Option String
  info : Payload
deriving DecidableEq, Repr

/-- The ways the `lint` pass can abort with an unhandled exception:
reading the unbound loop variable `persistent` (a `NameError`), or an
exception escaping a check function. -/
inductive LintAbort where
  | nameError
  | checkExc (e : String)
deriving DecidableEq, Repr

/-- The external boundaries of `lint`: `Recipe.from_file` and the
per-platform metadata loading (`load_all_meta` under a platform config). -/
structure LintEnv where
  loadRecipe : String → Except RecipeErr RecipeData
  loadMeta : String → Platform → Except ParseErr (List Meta)

/-! ### Commit-message directive extraction

The source compiles `r'\[\s*lint skip (?P<func>\w+) for (?P<recipe>.*?)\s*\]'`
and runs `findall` over the commit message.  The matcher below implements
exactly that pattern's semantics: `isSpaceChar` is `\s` (ASCII), `isWordChar`
is `\w` (ASCII); the lazy group `(?P<recipe>.*?)` grows one non-newline
character at a time until greedy `\s*` followed by `]` matches. -/

/-- ASCII portion of the regex class `\s`. -/
def isSpaceChar (c : Char) : Bool :=
  c = ' ' || c = '\t' || c = '\n' || c = '\x0d' || c = '\x0b' || c = '\x0c'

/-- ASCII portion of the regex class `\w`. -/
def isWordChar (c : Char) : Bool :=
  c.isAlpha || c.isDigit || c = '_'

/-- Match a literal character sequence, returning the remainder. -/
def stripLit : List Char → List Char → Option (List Char)
  | [], cs => some cs
  | _ :: _, [] => Option.none
  | l :: ls, c :: cs => if c = l then stripLit ls cs else Option.none

/-- Attempt to match `\s*\]` at the current position (greedy `\s*` followed
by the closing bracket); on success return the text after the bracket. -/
def tryClose (cs : List Char) : Option (List Char) :=
  match cs.dropWhile isSpaceChar with
  | [] => Option.none
  | c :: rest => if c = ']' then some rest else Option.none

/-- Lazy matching of `(?P<recipe>.*?)\s*\]`: at each position first try to
close, otherwise consume one non-newline character into the capture. -/
def scanRecipe : List Char → Option (List Char × List Char)
  | [] => Option.none
  | c :: cs =>
    match tryClose (c :: cs) with
    | some rest => some ([], rest)
    | Option.none =>
      if c = '\n' then Option.none
      else
        match scanRecipe cs with
        | some (r, rest) => some (c :: r, rest)
        | Option.none => Option.none

/-- Greedy `\w+` capture: the maximal nonempty run of word characters and
the remainder (the following literal ` for ` starts with a non-word
character, so no backtracking into the group is possible). -/
def wordPlus (cs : List Char) : Option (List Char × List Char) :=
  if (cs.takeWhile isWordChar).isEmpty then Option.none
  else some (cs.takeWhile isWordChar, cs.dropWhile isWordChar)

/-- Attempt to match the whole directive pattern at the current position;
on success return the two captures and the remainder of the text. -/
def matchDirective (cs : List Char) : Option ((String × String) × List Char) :=
  match cs with
  | [] => Option.none
  | c :: cs1 =>
    if c = '[' then
      (stripLit "lint skip ".data (cs1.dropWhile isSpaceChar)).bind fun cs2 =>
      (wordPlus cs2).bind fun fr =>
      (stripLit " for ".data fr.2).bind fun cs3 =>
      (scanRecipe cs3).map fun rr => ((fr.1.asString, rr.1.asString), rr.2)
    else Option.none

theorem dropWhile_length_le (p : Char → Bool) :
    ∀ cs : List Char, (cs.dropWhile p).length ≤ cs.length := by
  intro cs
  induction cs with
  | nil => simp
  | cons c cs ih =>
    by_cases h : p c
    · simp only [List.dropWhile, h]
      exact Nat.le_trans ih (by simp)
    · simp [List.dropWhile, h]

theorem tryClose_length_lt : ∀ {cs rest : List Char},
    tryClose cs = some rest → rest.length < cs.length := by
  intro cs rest h
  unfold tryClose at h
  have hd : (cs.dropWhile isSpaceChar).length ≤ cs.length :=
    dropWhile_length_le _ _
  cases hcs : cs.dropWhile isSpaceChar with
  | nil => rw [hcs] at h; exact absurd h (by simp)
  | cons c rest' =>
    rw [hcs] at h hd
    simp only at h
    by_cases hc : c = ']'
    · rw [if_pos hc] at h
      cases h
      simp only [List.length_cons] at hd
      omega
    · rw [if_neg hc] at h
      exact absurd h (by simp)

theorem scanRecipe_length_lt : ∀ {cs : List Char} {r rest : List Char},
    scanRecipe cs = some (r, rest) → rest.length < cs.length := by
  intro cs
  induction cs with
  | nil => intro r rest h; simp [scanRecipe] at h
  | cons c cs ih =>
    intro r rest h
    unfold scanRecipe at h
    cases htc : tryClose (c :: cs) with
    | some rest' =>
      rw [htc] at h
      cases h
      exact tryClose_length_lt htc
    | none =>
      rw [htc] at h
      by_cases hc : c = '\n'
      · simp [hc] at h
      · simp only [hc, if_false] at h
        cases hsr : scanRecipe cs with
        | none => rw [hsr] at h; exact absurd h (by simp)
        | some pr =>
          rw [hsr] at h
          cases pr with
          | mk r' rest' =>
            simp only at h
            cases h
            have := ih hsr
            simp only [List.length_cons]
            omega

theorem stripLit_length_le : ∀ {l cs rest : List Char},
    stripLit l cs = some rest → rest.length ≤ cs.length := by
  intro l
  induction l with
  | nil => intro cs rest h; cases h; exact Nat.le_refl _
  | cons x xs ih =>
    intro cs rest h
    cases cs with
    | nil => exact absurd h (by simp [stripLit])
    | cons c cs' =>
      unfold stripLit at h
      by_cases hc : c = x
      · simp only [hc, if_true] at h
        exact Nat.le_trans (ih h) (by simp)
      · simp [hc] at h

theorem wordPlus_length_le {cs f rest : List Char}
    (h : wordPlus cs = some (f, rest)) : rest.length ≤ cs.length := by
  unfold wordPlus at h
  by_cases he : (cs.takeWhile isWordChar).isEmpty
  · simp [he] at h
  · simp only [he, if_false] at h
    cases h
    exact dropWhile_length_le _ _

theorem matchDirective_length_lt : ∀ {cs : List Char} {p : String × String}
    {rest : List Char},
    matchDirective cs = some (p, rest) → rest.length < cs.length := by
  intro cs p rest h
  cases cs with
  | nil => simp [matchDirective] at h
  | cons c cs1 =>
    unfold matchDirective at h
    by_cases hc : c = '['
    · simp only [hc, if_true] at h
      rw [Option.bind_eq_some] at h
      obtain ⟨cs2, hsl, h⟩ := h
      rw [Option.bind_eq_some] at h
      obtain ⟨⟨f, fr⟩, hwp, h⟩ := h
      rw [Option.bind_eq_some] at h
      obtain ⟨cs3, hsl2, h⟩ := h
      rw [Option.map_eq_some'] at h
      obtain ⟨⟨r, rest'⟩, hsr, hout⟩ := h
      cases hout
      have h1 := scanRecipe_length_lt hsr
      have h2 := stripLit_length_le hsl
      have h2b : cs3.length ≤ fr.length := stripLit_length_le hsl2
      have h3 := wordPlus_length_le hwp
      have h5 : (cs1.dropWhile isSpaceChar).length ≤ cs1.length :=
        dropWhile_length_le _ _
      simp only [List.length_cons]
      omega
    · simp [hc] at h

/-- Fuel-indexed scan for all non-overlapping matches of the directive
pattern, left to right.  Every step consumes at least one character, so
`cs.length + 1` units of fuel always suffice. -/
def findDirectivesF : Nat → List Char → List (String × String)
  | 0, _ => []
  | fuel + 1, cs =>
    match matchDirective cs with
    | some (p, rest) => p :: findDirectivesF fuel rest
    | Option.none =>
      match cs with
      | [] => []
      | _ :: cs' => findDirectivesF fuel cs'

theorem findDirectivesF_fuel_irrel :
    ∀ (fuel fuel' : Nat) (cs : List Char), cs.length < fuel →
      cs.length < fuel' → findDirectivesF fuel cs = findDirectivesF fuel' cs := by
  intro fuel
  induction fuel with
  | zero => intro fuel' cs h; omega
  | succ fuel ih =>
    intro fuel' cs h h'
    cases fuel' with
    | zero => omega
    | succ fuel' =>
      simp only [findDirectivesF]
      cases hm : matchDirective cs with
      | some pr =>
        cases pr with
        | mk p rest =>
          have hlt := matchDirective_length_lt hm
          simp only
          rw [ih fuel' rest (by omega) (by omega)]
      | none =>
        cases cs with
        | nil => simp
        | cons c cs' =>
          simp only [List.length_cons] at h h'
          exact ih fuel' cs' (by omega) (by omega)

/-- All non-overlapping matches of the skip directive pattern, left to
right, as `re.findall` returns them. -/
def findDirectives (cs : List Char) : List (String × String) :=
  findDirectivesF (cs.length + 1) cs

/-- Unfolding equation for `findDirectives`: emit the match at the current
position and continue after it, or advance one character. -/
theorem findDirectives_step (cs : List Char) :
    findDirectives cs =
      match matchDirective cs with
      | some (p, rest) => p :: findDirectives rest
      | Option.none =>
        match cs with
        | [] => []
        | _ :: cs' => findDirectives cs' := by
  unfold findDirectives
  have hstep : findDirectivesF (cs.length + 1) cs =
      match matchDirective cs with
      | some (p, rest) => p :: findDirectivesF cs.length rest
      | Option.none =>
        match cs with
        | [] => []
        | _ :: cs' => findDirectivesF cs.length cs' := rfl
  rw [hstep]
  cases hm : matchDirective cs with
  | some pr =>
    cases pr with
    | mk p rest =>
      have hlt := matchDirective_length_lt hm
      simp only
      rw [findDirectivesF_fuel_irrel cs.length (rest.length + 1) rest
        (by omega) (by omega)]
  | none =>
    cases cs with
    | nil => simp
    | cons c cs' => simp

/-- Directive pairs `(func, recipe)` extracted from a commit message. -/
def lintSkipDirectives (commit : String) : List (String × String) :=
  findDirectives commit.data

/-! ### Skip resolution

`to_skip` is the commit-message directive list followed by
`itertools.product(exclude, recipes)` (in exclude-major order) when
`exclude is not None`; `skip_dict[recipe]` collects the first components of
the pairs naming that recipe. -/

/-- The pairs accumulated into `to_skip`. -/
def toSkipPairs (commit : String) (exclude : Option (List String))
    (recipes : List String) : List (String × String) :=
  lintSkipDirectives commit ++
    (match exclude with
     | Option.none => []
     | some ex => ex.flatMap fun f => recipes.map fun rc => (f, rc))

/-- The value of `skip_dict[r]`. -/
def skipDict (commit : String) (exclude : Option (List String))
    (recipes : List String) (r : String) : List String :=
  (toSkipPairs commit exclude recipes).filterMap fun p =>
    if p.2 = r then some p.1 else Option.none

/-- Membership in `skip_for_this_recipe`: the set union of
`skip_dict[recipe]` and every loaded variant's `extra/skip-lints` list. -/
def skipMem (skips : List String) (metas : List Meta) (c : String) : Bool :=
  skips.contains c || metas.any fun m => m.skipLints.contains c

/-! ### Recipe ordering

`sorted(recipes)` compares strings lexicographically by code point.  The
comparison is spelled out on the character lists so that it evaluates
inside the kernel. -/

/-- Lexicographic `≤` on code-point sequences, as Python compares strings. -/
def pyCharsLe : List Char → List Char → Bool
  | [], _ => true
  | _ :: _, [] => false
  | a :: as, b :: bs =>
    if a.toNat < b.toNat then true
    else if b.toNat < a.toNat then false
    else pyCharsLe as bs

/-- Python's `<=` on strings. -/
def pyLe (a b : String) : Bool :=
  pyCharsLe a.data b.data

/-- Propositional form of `pyLe`, for the sorting lemmas. -/
def PyLeR (a b : String) : Prop :=
  pyLe a b = true

instance : DecidableRel PyLeR :=
  fun a b => instDecidableEqBool (pyLe a b) true

theorem pyCharsLe_total : ∀ as bs : List Char,
    pyCharsLe as bs = true ∨ pyCharsLe bs as = true := by
  intro as
  induction as with
  | nil => intro bs; left; rfl
  | cons a as ih =>
    intro bs
    cases bs with
    | nil => right; rfl
    | cons b bs =>
      simp only [pyCharsLe]
      rcases Nat.lt_trichotomy a.toNat b.toNat with h | h | h
      · left; simp [h]
      · have hn : ¬a.toNat < b.toNat := by omega
        have hn' : ¬b.toNat < a.toNat := by omega
        simpa [hn, hn'] using ih bs
      · right; simp [h]

theorem pyCharsLe_trans : ∀ as bs cs : List Char,
    pyCharsLe as bs = true → pyCharsLe bs cs = true →
      pyCharsLe as cs = true := by
  intro as
  induction as with
  | nil => intro bs cs _ _; rfl
  | cons a as ih =>
    intro bs cs hab hbc
    cases bs with
    | nil => simp [pyCharsLe] at hab
    | cons b bs =>
      cases cs with
      | nil => simp [pyCharsLe] at hbc
      | cons c cs =>
        simp only [pyCharsLe] at hab hbc ⊢
        by_cases h1 : a.toNat < b.toNat
        · by_cases h2 : b.toNat < c.toNat
          · simp [show a.toNat < c.toNat from by omega]
          · by_cases h3 : c.toNat < b.toNat
            · rw [if_neg h2, if_pos h3] at hbc
              exact absurd hbc (by simp)
            · simp [show a.toNat < c.toNat from by omega]
        · by_cases h1' : b.toNat < a.toNat
          · rw [if_neg h1, if_pos h1'] at hab
            exact absurd hab (by simp)
          · rw [if_neg h1, if_neg h1'] at hab
            by_cases h2 : b.toNat < c.toNat
            · simp [show a.toNat < c.toNat from by omega]
            · by_cases h3 : c.toNat < b.toNat
              · rw [if_neg h2, if_pos h3] at hbc
                exact absurd hbc (by simp)
              · rw [if_neg h2, if_neg h3] at hbc
                have hac : ¬a.toNat < c.toNat := by omega
                have hca : ¬c.toNat < a.toNat := by omega
                rw [if_neg hac, if_neg hca]
                exact ih bs cs hab hbc

theorem pyCharsLe_antisymm : ∀ as bs : List Char,
    pyCharsLe as bs = true → pyCharsLe bs as = true → as = bs := by
  intro as
  induction as with
  | nil =>
    intro bs _ hba
    cases bs with
    | nil => rfl
    | cons b bs => simp [pyCharsLe] at hba
  | cons a as ih =>
    intro bs hab hba
    cases bs with
    | nil => simp [pyCharsLe] at hab
    | cons b bs =>
      simp only [pyCharsLe] at hab hba
      rcases Nat.lt_trichotomy a.toNat b.toNat with h | h | h
      · have hn : ¬b.toNat < a.toNat := by omega
        simp [h, hn] at hba
      · have hn : ¬a.toNat < b.toNat := by omega
        have hn' : ¬b.toNat < a.toNat := by omega
        simp only [hn, hn', if_false] at hab hba
        have hc : a = b := Char.eq_of_val_eq (UInt32.ext
          (Nat.le_antisymm (Nat.le_of_not_lt hn') (Nat.le_of_not_lt hn)))
        rw [hc, ih bs hab hba]
      · have hn : ¬a.toNat < b.toNat := by omega
        simp [h, hn] at hab

instance : IsTotal String PyLeR :=
  ⟨fun a b => pyCharsLe_total a.data b.data⟩

instance : IsTrans String PyLeR :=
  ⟨fun a b c => pyCharsLe_trans a.data b.data c.data⟩

instance : IsAntisymm String PyLeR :=
  ⟨fun a b hab hba => by
    cases a with
    | mk as =>
      cases b with
      | mk bs => exact congrArg String.mk (pyCharsLe_antisymm as bs hab hba)⟩

/-- `sorted(recipes)`. -/
def sortRecipes (recipes : List String) : List String :=
  List.insertionSort PyLeR recipes

/-! ### Per-recipe processing -/

/-- Payload of a `load_recipe` error diagnostic: the failure message under
both the check-name key and `fix`, plus `start_line`/`end_line` when the
exception carries a `line` attribute. -/
def loadErrPayload (e : RecipeErr) : Payload :=
  [("load_recipe", Value.str e.msg), ("fix", Value.str e.msg)] ++
    (match e.line with
     | some l => [("start_line", Value.nat l), ("end_line", Value.nat l)]
     | Option.none => [])

/-- Payload of a `parse_error` diagnostic, with the extra `_exc`, `test1`
and `test2` keys the source stores. -/
def parseErrPayload (e : ParseErr) : Payload :=
  [("parse_error", Value.str e.msg), ("fix", Value.str e.msg),
   ("_exc", Value.tag e.excType),
   ("test1", e.code.getD Value.none), ("test2", Value.strList e.args)]

/-- The diagnostic appended when `Recipe.from_file` raises. -/
def loadErrHit (r : String) (e : RecipeErr) : Hit :=
  { recipe := r, check := "load_recipe", severity := some "ERROR",
    info := loadErrPayload e }

/-- The diagnostic appended when metadata loading raises. -/
def parseErrHit (r : String) (e : ParseErr) : Hit :=
  { recipe := r, check := "parse_error", severity := some "ERROR",
    info := parseErrPayload e }

/-- Metadata variants of one recipe: the concatenation over the platform
list `["linux", "osx"]`, where a failure on either platform (the first one
aborting before the second is attempted) fails the whole load. -/
def metasOf (env : LintEnv) (r : String) : Except ParseErr (List Meta) :=
  match env.loadMeta r Platform.linux with
  | Except.error e => Except.error e
  | Except.ok ms1 =>
    match env.loadMeta r Platform.osx with
    | Except.error e => Except.error e
    | Except.ok ms2 => Except.ok (ms1 ++ ms2)

/-- The check loop over the registry.  `ps` is the current binding of the
local variable `persistent` (`Option.none` when it has never been assigned).
A skipped check's logging path reads `persistent`, so meeting a skipped
check while `ps` is unbound raises `NameError`; an exception escaping a
check's invocation propagates as `checkExc`. -/
def runChecks (registry : List Check) (r : String) (obj : RecipeData)
    (metas : List Meta) (skips : List String) (ps : Option (List String)) :
    Except LintAbort (List Hit) :=
  match registry with
  | [] => Except.ok []
  | c :: rest =>
    if skipMem skips metas c.name then
      match ps with
      | Option.none => Except.error LintAbort.nameError
      | some _ => runChecks rest r obj metas skips ps
    else
      match c.run obj metas with
      | Except.error e => Except.error (LintAbort.checkExc e)
      | Except.ok payload =>
        match runChecks rest r obj metas skips ps with
        | Except.error a => Except.error a
        | Except.ok hits =>
          Except.ok
            (if payload.isEmpty then hits
             else { recipe := r, check := c.name, severity := Option.none,
                    info := payload } :: hits)

/-- Process one recipe: construct the handle, load the variants, then run
the checks.  Returns the diagnostics for this recipe together with the
binding of `persistent` after the recipe (the variable survives from one
loop iteration to the next). -/
def lintOne (env : LintEnv) (registry : List Check) (skips : List String)
    (r : String) (ps : Option (List String)) :
    Except LintAbort (List Hit × Option (List String)) :=
  match env.loadRecipe r with
  | Except.error e => Except.ok ([loadErrHit r e], ps)
  | Except.ok obj =>
    match metasOf env r with
    | Except.error e => Except.ok ([parseErrHit r e], ps)
    | Except.ok metas =>
      let ps1 := metas.foldl (fun _ m => some m.skipLints) ps
      match runChecks registry r obj metas skips ps1 with
      | Except.error a => Except.error a
      | Except.ok hits => Except.ok (hits, ps1)

/-- The main loop over the (already sorted) recipe list, threading the
`persistent` binding and accumulating the `hits` list. -/
def lintLoop (env : LintEnv) (registry : List Check)
    (skipOf : String → List String) :
    List String → Option (List String) →
      Except LintAbort (List Hit × Option (List String))
  | [], ps => Except.ok ([], ps)
  | r :: rest, ps =>
    match lintOne env registry (skipOf r) r ps with
    | Except.error a => Except.error a
    | Except.ok (hits, ps1) =>
      match lintLoop env registry skipOf rest ps1 with
      | Except.error a => Except.error a
      | Except.ok (more, ps2) => Except.ok (hits ++ more, ps2)

/-- The full diagnostic sequence of a pass: recipes are visited in the
order of `sorted(recipes)`. -/
def lintHits (env : LintEnv) (recipes : List String)
    (exclude : Option (List String)) (registry : List Check)
    (commit : String) : Except LintAbort (List Hit) :=
  (lintLoop env registry (skipDict commit exclude recipes)
    (sortRecipes recipes) Option.none).map Prod.fst

/-! ### Report construction

`pd.DataFrame(hits)[['recipe', 'check', 'info']]` keeps the three named
columns; `pd.DataFrame(list(report['info'].values))` widens the payloads
into one column per key in first-seen order with null cells where a key is
absent; `pd.concat(..., axis=1)` appends those columns after the first
three.  An empty `hits` list makes `lint` return `None` instead. -/

/-- One table cell: null (`NaN`), a scalar value, or the raw payload dict
kept in the `info` column. -/
inductive Cell where
  | null
  | val (v : Value)
  | obj (p : Payload)
deriving DecidableEq, Repr

/-- Append a key to the column accumulator unless already present. -/
def addKey (acc : List String) (k : String) : List String :=
  if acc.contains k then acc else acc ++ [k]

/-- Fold one payload's keys, in payload order, into the accumulator. -/
def addKeys (acc : List String) (p : Payload) : List String :=
  p.foldl (fun a kv => addKey a kv.1) acc

/-- The payload keys across all hits, each kept once, in first-seen order. -/
def payloadKeys (hits : List Hit) : List String :=
  hits.foldl (fun acc h => addKeys acc h.info) []

/-- The table row of one diagnostic. -/
def hitRow (keys : List String) (h : Hit) : List Cell :=
  [Cell.val (Value.str h.recipe), Cell.val (Value.str h.check),
   Cell.obj h.info] ++
    keys.map fun k =>
      match lookupPayload k h.info with
      | some v => Cell.val v
      | Option.none => Cell.null

/-- The aggregated table. -/
structure Report where
  columns : List String
  rows : List (List Cell)
deriving DecidableEq, Repr

/-- Aggregation: `None` (the clean sentinel) when there are no diagnostics,
otherwise one row per diagnostic. -/
def buildReport (hits : List Hit) : Option Report :=
  if hits.isEmpty then Option.none
  else
    some { columns := ["recipe", "check", "info"] ++ payloadKeys hits,
           rows := hits.map (hitRow (payloadKeys hits)) }

/-- The `lint` entry point: the diagnostic pass followed by report
aggregation (or the clean sentinel), unless the pass aborted with an
unhandled exception. -/
def lint (env : LintEnv) (recipes : List String)
    (exclude : Option (List String)) (registry : List Check)
    (commit : String) : Except LintAbort (Option Report) :=
  (lintHits env recipes exclude registry commit).map buildReport

/-! ### Helper lemmas about skip resolution -/

theorem skipMem_of_contains {skips : List String} {metas : List Meta}
    {c : String} (h : c ∈ skips) : skipMem skips metas c = true := by
  unfold skipMem
  rw [Bool.or_eq_true]
  exact Or.inl (List.elem_iff.mpr h)

theorem skipMem_of_meta {skips : List String} {metas : List Meta} {c : String}
    {m : Meta} (hm : m ∈ metas) (h : c ∈ m.skipLints) :
    skipMem skips metas c = true := by
  unfold skipMem
  rw [Bool.or_eq_true]
  exact Or.inr (List.any_eq_true.mpr ⟨m, hm, List.elem_iff.mpr h⟩)

theorem mem_skipDict {commit : String} {exclude : Option (List String)}
    {recipes : List String} {r c : String} :
    c ∈ skipDict commit exclude recipes r ↔
      (c, r) ∈ lintSkipDirectives commit ∨
        (∃ ex, exclude = some ex ∧ c ∈ ex ∧ r ∈ recipes) := by
  unfold skipDict toSkipPairs
  rw [List.mem_filterMap]
  constructor
  · rintro ⟨⟨f, rc⟩, hmem, hf⟩
    by_cases hrc : rc = r
    · subst hrc
      have hf' : f = c := by simpa using hf
      subst hf'
      rcases List.mem_append.mp hmem with hd | hp
      · exact Or.inl hd
      · cases hex : exclude with
        | none => rw [hex] at hp; simp at hp
        | some ex =>
          rw [hex] at hp
          simp only [List.mem_flatMap, List.mem_map] at hp
          obtain ⟨f', hf', rc', hrc', heq⟩ := hp
          cases heq
          exact Or.inr ⟨ex, rfl, hf', hrc'⟩
    · simp [hrc] at hf
  · intro h
    rcases h with hd | ⟨ex, hex, hc, hr⟩
    · exact ⟨(c, r), List.mem_append.mpr (Or.inl hd), by simp⟩
    · refine ⟨(c, r), List.mem_append.mpr (Or.inr ?_), by simp⟩
      rw [hex]
      simp only [List.mem_flatMap, List.mem_map]
      exact ⟨c, hc, r, hr, rfl⟩

/-! ### Helper lemmas about the check loop -/

theorem runChecks_hits_shape {reg : List Check} {r : String} {obj : RecipeData}
    {metas : List Meta} {skips : List String} {ps : Option (List String)}
    {hits : List Hit}
    (h : runChecks reg r obj metas skips ps = Except.ok hits) :
    ∀ hit ∈ hits, hit.recipe = r ∧ hit.severity = Option.none ∧
      skipMem skips metas hit.check = false := by
  induction reg generalizing hits with
  | nil =>
    unfold runChecks at h
    cases h
    intro hit hmem
    exact absurd hmem (List.not_mem_nil hit)
  | cons c rest ih =>
    unfold runChecks at h
    by_cases hsk : skipMem skips metas c.name
    · rw [if_pos hsk] at h
      cases ps with
      | none => exact absurd h (by simp)
      | some l => exact ih h
    · rw [if_neg hsk] at h
      cases hrun : c.run obj metas with
      | error e => rw [hrun] at h; exact absurd h (by simp)
      | ok payload =>
        rw [hrun] at h
        cases hrest : runChecks rest r obj metas skips ps with
        | error a => rw [hrest] at h; exact absurd h (by simp)
        | ok hits' =>
          rw [hrest] at h
          simp only [Except.ok.injEq] at h
          subst h
          intro hit hmem
          by_cases hp : payload.isEmpty
          · rw [if_pos hp] at hmem
            exact ih hrest hit hmem
          · rw [if_neg hp] at hmem
            rcases List.mem_cons.mp hmem with heq | hmem'
            · subst heq
              exact ⟨rfl, rfl, by simpa using hsk⟩
            · exact ih hrest hit hmem'

theorem runChecks_eq_filterMap {reg : List Check} {r : String}
    {obj : RecipeData} {metas : List Meta} {skips : List String}
    {ps : Option (List String)}
    (hok : ∀ c ∈ reg, ∃ p, c.run obj metas = Except.ok p)
    (hns : ps.isSome = true ∨ ∀ c ∈ reg, skipMem skips metas c.name = false) :
    runChecks reg r obj metas skips ps = Except.ok
      (reg.filterMap fun c =>
        if skipMem skips metas c.name then Option.none
        else
          match c.run obj metas with
          | Except.ok p =>
            if p.isEmpty then Option.none
            else some { recipe := r, check := c.name,
                        severity := Option.none, info := p }
          | Except.error _ => Option.none) := by
  induction reg with
  | nil => rfl
  | cons c rest ih =>
    have hok' : ∀ c' ∈ rest, ∃ p, c'.run obj metas = Except.ok p :=
      fun c' hc' => hok c' (List.mem_cons_of_mem c hc')
    have hns' : ps.isSome = true ∨
        ∀ c' ∈ rest, skipMem skips metas c'.name = false := by
      rcases hns with h | h
      · exact Or.inl h
      · exact Or.inr fun c' hc' => h c' (List.mem_cons_of_mem c hc')
    unfold runChecks
    rw [List.filterMap_cons]
    by_cases hsk : skipMem skips metas c.name
    · rw [if_pos hsk]
      cases hps : ps with
      | none =>
        rcases hns with h | h
        · rw [hps] at h; simp at h
        · exact absurd (h c (List.mem_cons_self c rest)) (by simp [hsk])
      | some l =>
        subst hps
        simp only
        rw [ih hok' hns']
        simp [hsk]
    · rw [if_neg hsk]
      obtain ⟨p, hp⟩ := hok c (List.mem_cons_self c rest)
      rw [hp, ih hok' hns']
      simp only [hsk, if_false]
      by_cases hpe : p.isEmpty
      · simp [hpe]
      · simp [hpe]

theorem runChecks_silent {reg : List Check} {r : String} {obj : RecipeData}
    {metas : List Meta} {skips : List String} {ps : Option (List String)}
    (hok : ∀ c ∈ reg, c.run obj metas = Except.ok [])
    (hns : ps.isSome = true ∨ ∀ c ∈ reg, skipMem skips metas c.name = false) :
    runChecks reg r obj metas skips ps = Except.ok [] := by
  rw [runChecks_eq_filterMap (fun c hc => ⟨[], hok c hc⟩) hns]
  congr 1
  rw [List.filterMap_eq_nil_iff]
  intro c hc
  by_cases hsk : skipMem skips metas c.name
  · simp [hsk]
  · simp [hsk, hok c hc]

theorem runChecks_abort {pre : List Check} {c : Check} {post : List Check}
    {r : String} {obj : RecipeData} {metas : List Meta} {skips : List String}
    {ps : Option (List String)} {e : String}
    (hpre : ∀ c' ∈ pre, skipMem skips metas c'.name = false ∧
      ∃ p, c'.run obj metas = Except.ok p)
    (hcs : skipMem skips metas c.name = false)
    (hrun : c.run obj metas = Except.error e) :
    runChecks (pre ++ c :: post) r obj metas skips ps =
      Except.error (LintAbort.checkExc e) := by
  induction pre with
  | nil =>
    unfold runChecks
    simp [hcs, hrun]
  | cons c' pre' ih =>
    have h1 := hpre c' (List.mem_cons_self c' pre')
    have hrest := ih fun x hx => hpre x (List.mem_cons_of_mem c' hx)
    rw [List.cons_append]
    unfold runChecks
    rw [if_neg (by simp [h1.1])]
    obtain ⟨p, hp⟩ := h1.2
    rw [hp, hrest]

theorem runChecks_nameError {pre : List Check} {c : Check} {post : List Check}
    {r : String} {obj : RecipeData} {metas : List Meta} {skips : List String}
    (hpre : ∀ c' ∈ pre, skipMem skips metas c'.name = false ∧
      ∃ p, c'.run obj metas = Except.ok p)
    (hcs : skipMem skips metas c.name = true) :
    runChecks (pre ++ c :: post) r obj metas skips Option.none =
      Except.error LintAbort.nameError := by
  induction pre with
  | nil =>
    unfold runChecks
    simp [hcs]
  | cons c' pre' ih =>
    have h1 := hpre c' (List.mem_cons_self c' pre')
    have hrest := ih fun x hx => hpre x (List.mem_cons_of_mem c' hx)
    rw [List.cons_append]
    unfold runChecks
    rw [if_neg (by simp [h1.1])]
    obtain ⟨p, hp⟩ := h1.2
    rw [hp, hrest]

/-! ### Helper lemmas about per-recipe processing and the main loop -/

theorem lintOne_cases {env : LintEnv} {reg : List Check} {skips : List String}
    {r : String} {ps ps' : Option (List String)} {hits : List Hit}
    (h : lintOne env reg skips r ps = Except.ok (hits, ps')) :
    (∃ e, env.loadRecipe r = Except.error e ∧ hits = [loadErrHit r e] ∧
      ps' = ps) ∨
    (∃ obj e, env.loadRecipe r = Except.ok obj ∧
      metasOf env r = Except.error e ∧ hits = [parseErrHit r e] ∧ ps' = ps) ∨
    (∃ obj metas, env.loadRecipe r = Except.ok obj ∧
      metasOf env r = Except.ok metas ∧
      ps' = metas.foldl (fun _ m => some m.skipLints) ps ∧
      runChecks reg r obj metas skips ps' = Except.ok hits) := by
  unfold lintOne at h
  cases hload : env.loadRecipe r with
  | error e =>
    rw [hload] at h
    simp only [Except.ok.injEq, Prod.mk.injEq] at h
    exact Or.inl ⟨e, rfl, h.1.symm, h.2.symm⟩
  | ok obj =>
    rw [hload] at h
    cases hmeta : metasOf env r with
    | error e =>
      rw [hmeta] at h
      simp only [Except.ok.injEq, Prod.mk.injEq] at h
      exact Or.inr (Or.inl ⟨obj, e, rfl, rfl, h.1.symm, h.2.symm⟩)
    | ok metas =>
      rw [hmeta] at h
      simp only at h
      cases hrc : runChecks reg r obj metas skips
          (metas.foldl (fun _ m => some m.skipLints) ps) with
      | error a => rw [hrc] at h; exact absurd h (by simp)
      | ok hits' =>
        rw [hrc] at h
        simp only [Except.ok.injEq, Prod.mk.injEq] at h
        exact Or.inr (Or.inr ⟨obj, metas, rfl, rfl, h.2.symm, by
          rw [← h.2, hrc, h.1]⟩)

theorem lintOne_hits_recipe {env : LintEnv} {reg : List Check}
    {skips : List String} {r : String} {ps ps' : Option (List String)}
    {hits : List Hit}
    (h : lintOne env reg skips r ps = Except.ok (hits, ps')) :
    ∀ hit ∈ hits, hit.recipe = r := by
  intro hit hmem
  rcases lintOne_cases h with ⟨e, _, hh, _⟩ | ⟨obj, e, _, _, hh, _⟩ |
    ⟨obj, metas, _, _, _, hrc⟩
  · subst hh
    rcases List.mem_singleton.mp hmem with rfl
    rfl
  · subst hh
    rcases List.mem_singleton.mp hmem with rfl
    rfl
  · exact (runChecks_hits_shape hrc hit hmem).1

theorem lintLoop_cons {env : LintEnv} {reg : List Check}
    {skipOf : String → List String} {r : String} {rest : List String}
    {ps : Option (List String)} :
    lintLoop env reg skipOf (r :: rest) ps =
      match lintOne env reg (skipOf r) r ps with
      | Except.error a => Except.error a
      | Except.ok (hits, ps1) =>
        match lintLoop env reg skipOf rest ps1 with
        | Except.error a => Except.error a
        | Except.ok (more, ps2) => Except.ok (hits ++ more, ps2) := rfl

theorem lintLoop_hits_mem {env : LintEnv} {reg : List Check}
    {skipOf : String → List String} {rs : List String}
    {ps ps' : Option (List String)} {hits : List Hit}
    (h : lintLoop env reg skipOf rs ps = Except.ok (hits, ps')) :
    ∀ hit ∈ hits, ∃ r ∈ rs, hit.recipe = r := by
  induction rs generalizing ps hits ps' with
  | nil =>
    unfold lintLoop at h
    simp only [Except.ok.injEq, Prod.mk.injEq] at h
    intro hit hmem
    rw [← h.1] at hmem
    exact absurd hmem (List.not_mem_nil hit)
  | cons r rest ih =>
    rw [lintLoop_cons] at h
    cases hone : lintOne env reg (skipOf r) r ps with
    | error a => rw [hone] at h; exact absurd h (by simp)
    | ok pr =>
      obtain ⟨hits1, ps1⟩ := pr
      rw [hone] at h
      simp only at h
      cases hloop : lintLoop env reg skipOf rest ps1 with
      | error a => rw [hloop] at h; exact absurd h (by simp)
      | ok pr2 =>
        obtain ⟨more, ps2⟩ := pr2
        rw [hloop] at h
        simp only [Except.ok.injEq, Prod.mk.injEq] at h
        intro hit hmem
        rw [← h.1] at hmem
        rcases List.mem_append.mp hmem with h1 | h2
        · exact ⟨r, List.mem_cons_self r rest, lintOne_hits_recipe hone hit h1⟩
        · obtain ⟨r', hr', hrec⟩ := ih hloop hit h2
          exact ⟨r', List.mem_cons_of_mem r hr', hrec⟩

theorem lintLoop_error_cons {env : LintEnv} {reg : List Check}
    {skipOf : String → List String} {r : String} {rest : List String}
    {ps : Option (List String)} {a : LintAbort}
    (h : lintOne env reg (skipOf r) r ps = Except.error a) :
    lintLoop env reg skipOf (r :: rest) ps = Except.error a := by
  rw [lintLoop_cons, h]

theorem lintLoop_append {env : LintEnv} {reg : List Check}
    {skipOf : String → List String} (rs1 rs2 : List String)
    (ps : Option (List String)) :
    lintLoop env reg skipOf (rs1 ++ rs2) ps =
      match lintLoop env reg skipOf rs1 ps with
      | Except.error a => Except.error a
      | Except.ok (h1, ps1) =>
        match lintLoop env reg skipOf rs2 ps1 with
        | Except.error a => Except.error a
        | Except.ok (h2, ps2) => Except.ok (h1 ++ h2, ps2) := by
  induction rs1 generalizing ps with
  | nil =>
    simp only [List.nil_append]
    cases h2 : lintLoop env reg skipOf rs2 ps with
    | error a => simp [lintLoop, h2]
    | ok pr => cases pr; simp [lintLoop, h2]
  | cons r rest ih =>
    rw [List.cons_append, lintLoop_cons, lintLoop_cons]
    cases hone : lintOne env reg (skipOf r) r ps with
    | error a => rfl
    | ok pr =>
      obtain ⟨hits1, ps1⟩ := pr
      simp only
      rw [ih ps1]
      cases hl1 : lintLoop env reg skipOf rest ps1 with
      | error a => rfl
      | ok pr2 =>
        obtain ⟨more, ps2⟩ := pr2
        simp only
        cases hl2 : lintLoop env reg skipOf rs2 ps2 with
        | error a => rfl
        | ok pr3 =>
          obtain ⟨h2, ps3⟩ := pr3
          simp

/-! ### Concrete fixtures used by witnesses and counterexamples -/

/-- Environment whose recipes all fail to load. -/
def envLoadFail : LintEnv :=
  { loadRecipe := fun _ => Except.error ⟨"cannot load", some 3⟩
    loadMeta := fun _ _ => Except.ok [] }

/-- Environment whose recipes load but whose metadata fails to parse. -/
def envParseFail : LintEnv :=
  { loadRecipe := fun r => Except.ok ⟨r⟩
    loadMeta := fun _ _ =>
      Except.error ⟨"bad yaml", "ScannerError", Option.none, ["bad yaml"]⟩ }

/-- Environment whose recipes load with one metadata variant carrying a
persisted skip list. -/
def envOk : LintEnv :=
  { loadRecipe := fun r => Except.ok ⟨r⟩
    loadMeta := fun _ p =>
      match p with
      | Platform.linux => Except.ok [⟨["persisted_skip"]⟩]
      | Platform.osx => Except.ok [] }

/-- Environment whose recipes load with zero metadata variants. -/
def envZero : LintEnv :=
  { loadRecipe := fun r => Except.ok ⟨r⟩
    loadMeta := fun _ _ => Except.ok [] }

/-- Environment where recipe `a` has one variant and recipe `b` has none. -/
def envMixed : LintEnv :=
  { loadRecipe := fun r => Except.ok ⟨r⟩
    loadMeta := fun r p =>
      match r, p with
      | "a", Platform.linux => Except.ok [⟨[]⟩]
      | _, _ => Except.ok [] }

/-- A check that always reports a one-key payload. -/
def checkMsg : Check :=
  ⟨"has_msg", fun _ _ => Except.ok [("msg", Value.str "x")]⟩

/-- A check that never reports. -/
def checkQuiet : Check :=
  ⟨"quiet_check", fun _ _ => Except.ok []⟩

/-- A check that raises on every invocation. -/
def checkBoom : Check :=
  ⟨"raising_check", fun _ _ => Except.error "oops"⟩

/-- A (perverse but legal) check registered under the name of the loader's
error diagnostic. -/
def checkNamedLoad : Check :=
  ⟨"load_recipe", fun _ _ => Except.ok [("msg", Value.str "x")]⟩

/-- A silent check registered under a name that skip directives target. -/
def checkTarget : Check :=
  ⟨"target_check", fun _ _ => Except.ok []⟩

/-! ### C2 -/

/-- C2: if constructing the recipe handle fails, the recipe contributes
exactly one `load_recipe` diagnostic with severity ERROR; if loading
metadata fails, exactly one `parse_error` diagnostic with severity ERROR.
In both cases the result is independent of the registry (no check is
invoked) and the loop continues with the remaining recipes, prepending the
single error diagnostic to their output. -/
theorem error_short_circuit (env : LintEnv) (reg reg' : List Check)
    (skipOf : String → List String) (r : String) (rest : List String)
    (ps : Option (List String)) :
    (∀ e, env.loadRecipe r = Except.error e →
      lintOne env reg (skipOf r) r ps = Except.ok
        ([{ recipe := r, check := "load_recipe", severity := some "ERROR",
            info := loadErrPayload e }], ps) ∧
      lintOne env reg (skipOf r) r ps = lintOne env reg' (skipOf r) r ps ∧
      lintLoop env reg skipOf (r :: rest) ps =
        (lintLoop env reg skipOf rest ps).map fun pr =>
          (loadErrHit r e :: pr.1, pr.2)) ∧
    (∀ obj e, env.loadRecipe r = Except.ok obj →
      metasOf env r = Except.error e →
      lintOne env reg (skipOf r) r ps = Except.ok
        ([{ recipe := r, check := "parse_error", severity := some "ERROR",
            info := parseErrPayload e }], ps) ∧
      lintOne env reg (skipOf r) r ps = lintOne env reg' (skipOf r) r ps ∧
      lintLoop env reg skipOf (r :: rest) ps =
        (lintLoop env reg skipOf rest ps).map fun pr =>
          (parseErrHit r e :: pr.1, pr.2)) := by
  constructor
  · intro e he
    have hone : ∀ rg : List Check, lintOne env rg (skipOf r) r ps =
        Except.ok ([loadErrHit r e], ps) := by
      intro rg
      unfold lintOne
      rw [he]
    refine ⟨hone reg, (hone reg).trans (hone reg').symm, ?_⟩
    rw [lintLoop_cons, hone reg]
    cases hl : lintLoop env reg skipOf rest ps with
    | error a => simp [hl, Except.map]
    | ok pr => cases pr; simp [hl, Except.map, loadErrHit]
  · intro obj e hobj he
    have hone : ∀ rg : List Check, lintOne env rg (skipOf r) r ps =
        Except.ok ([parseErrHit r e], ps) := by
      intro rg
      unfold lintOne
      rw [hobj, he]
    refine ⟨hone reg, (hone reg).trans (hone reg').symm, ?_⟩
    rw [lintLoop_cons, hone reg]
    cases hl : lintLoop env reg skipOf rest ps with
    | error a => simp [hl, Except.map]
    | ok pr => cases pr; simp [hl, Except.map, parseErrHit]

/-- C2 witness: concrete load and parse failures, each yielding the single
ERROR diagnostic. -/
theorem error_short_circuit_witness :
    envLoadFail.loadRecipe "a" = Except.error ⟨"cannot load", some 3⟩ ∧
    lintOne envLoadFail [checkMsg] [] "a" Option.none = Except.ok
      ([{ recipe := "a", check := "load_recipe", severity := some "ERROR",
          info := loadErrPayload ⟨"cannot load", some 3⟩ }], Option.none) ∧
    envParseFail.loadRecipe "a" = Except.ok ⟨"a"⟩ ∧
    metasOf envParseFail "a" =
      Except.error ⟨"bad yaml", "ScannerError", Option.none, ["bad yaml"]⟩ ∧
    lintOne envParseFail [checkMsg] [] "a" Option.none = Except.ok
      ([{ recipe := "a", check := "parse_error", severity := some "ERROR",
          info := parseErrPayload
            ⟨"bad yaml", "ScannerError", Option.none, ["bad yaml"]⟩ }],
        Option.none) :=
  ⟨by decide,
   ((error_short_circuit envLoadFail [checkMsg] [checkQuiet] (fun _ => [])
      "a" [] Option.none).1 ⟨"cannot load", some 3⟩ (by decide)).1,
   by decide, by decide,
   ((error_short_circuit envParseFail [checkMsg] [checkQuiet] (fun _ => [])
      "a" [] Option.none).2 ⟨"a"⟩
      ⟨"bad yaml", "ScannerError", Option.none, ["bad yaml"]⟩
      (by decide) (by decide)).1⟩

/-! ### C5 -/

/-- C5: when a recipe loads and parses, the check loop walks the registry
in registration order; each non-skipped check is invoked once with the
recipe handle and the full variant list, contributing a diagnostic exactly
when its payload is non-empty; skipped checks contribute nothing. -/
theorem registry_iteration (env : LintEnv) (reg : List Check)
    (skips : List String) (r : String) (ps : Option (List String))
    (obj : RecipeData) (metas : List Meta)
    (hload : env.loadRecipe r = Except.ok obj)
    (hmeta : metasOf env r = Except.ok metas)
    (hok : ∀ c ∈ reg, ∃ p, c.run obj metas = Except.ok p)
    (hns : (metas.foldl (fun _ m => some m.skipLints) ps).isSome = true ∨
      ∀ c ∈ reg, skipMem skips metas c.name = false) :
    lintOne env reg skips r ps = Except.ok
      (reg.filterMap (fun c =>
        if skipMem skips metas c.name then Option.none
        else
          match c.run obj metas with
          | Except.ok p =>
            if p.isEmpty then Option.none
            else some { recipe := r, check := c.name,
                        severity := Option.none, info := p }
          | Except.error _ => Option.none),
        metas.foldl (fun _ m => some m.skipLints) ps) := by
  unfold lintOne
  rw [hload, hmeta]
  simp only
  rw [runChecks_eq_filterMap hok hns]

/-- C5 witness: a reporting check and a silent check on a recipe with one
variant; only the reporting check yields a diagnostic. -/
theorem registry_iteration_witness :
    envOk.loadRecipe "a" = Except.ok ⟨"a"⟩ ∧
    metasOf envOk "a" = Except.ok [⟨["persisted_skip"]⟩] ∧
    lintOne envOk [checkMsg, checkQuiet] [] "a" Option.none = Except.ok
      ([{ recipe := "a", check := "has_msg", severity := Option.none,
          info := [("msg", Value.str "x")] }], some ["persisted_skip"]) :=
  ⟨by decide, by decide,
   registry_iteration envOk [checkMsg, checkQuiet] [] "a" Option.none
     ⟨"a"⟩ [⟨["persisted_skip"]⟩] (by decide) (by decide)
     (by
       intro c hc
       rcases List.mem_cons.mp hc with rfl | hc'
       · exact ⟨[("msg", Value.str "x")], rfl⟩
       · rcases List.mem_singleton.mp hc' with rfl
         exact ⟨[], rfl⟩)
     (Or.inl rfl)⟩

/-! ### C9 -/

/-- C9: an exception escaping a check function is not caught: once the
loop reaches that check (all earlier registry entries either skipped with
the variable bound or returning normally), the whole pass aborts with the
exception, discarding every diagnostic collected so far and leaving all
remaining recipes unprocessed. -/
theorem check_exception_aborts (env : LintEnv) (pre post : List Check)
    (c : Check) (skipOf : String → List String) (r : String)
    (rest : List String) (ps : Option (List String)) (obj : RecipeData)
    (metas : List Meta) (e : String)
    (hload : env.loadRecipe r = Except.ok obj)
    (hmeta : metasOf env r = Except.ok metas)
    (hpre : ∀ c' ∈ pre, skipMem (skipOf r) metas c'.name = false ∧
      ∃ p, c'.run obj metas = Except.ok p)
    (hskip : skipMem (skipOf r) metas c.name = false)
    (hrun : c.run obj metas = Except.error e) :
    lintLoop env (pre ++ c :: post) skipOf (r :: rest) ps =
      Except.error (LintAbort.checkExc e) ∧
    ∀ rs1 hits1, lintLoop env (pre ++ c :: post) skipOf rs1 Option.none =
        Except.ok (hits1, ps) →
      lintLoop env (pre ++ c :: post) skipOf (rs1 ++ r :: rest) Option.none =
        Except.error (LintAbort.checkExc e) := by
  have hone : lintOne env (pre ++ c :: post) (skipOf r) r ps =
      Except.error (LintAbort.checkExc e) := by
    unfold lintOne
    rw [hload, hmeta]
    simp only
    rw [runChecks_abort hpre hskip hrun]
  refine ⟨lintLoop_error_cons hone, ?_⟩
  intro rs1 hits1 h1
  rw [lintLoop_append, h1]
  simp only
  rw [lintLoop_error_cons hone]

/-- C9 witness: a raising check aborts a two-recipe pass at the first
recipe even though a later recipe remains. -/
theorem check_exception_aborts_witness :
    envOk.loadRecipe "a" = Except.ok ⟨"a"⟩ ∧
    metasOf envOk "a" = Except.ok [⟨["persisted_skip"]⟩] ∧
    checkBoom.run ⟨"a"⟩ [⟨["persisted_skip"]⟩] = Except.error "oops" ∧
    lintLoop envOk [checkBoom] (fun _ => []) ["a", "b"] Option.none =
      Except.error (LintAbort.checkExc "oops") :=
  ⟨by decide, by decide, by decide, by
    have h := (check_exception_aborts envOk [] [] checkBoom (fun _ => [])
      "a" ["b"] Option.none ⟨"a"⟩ [⟨["persisted_skip"]⟩] "oops"
      (by decide) (by decide)
      (by intro c' hc'; exact absurd hc' (List.not_mem_nil c'))
      (by decide) (by decide)).1
    exact h⟩

/-! ### C10 (amended) -/

/-- C10 amended: when a recipe loads with zero metadata variants, some
registered check is named in its commit/exclude-derived skip list, and the
`persistent` loop variable is still unbound when that recipe is processed
(in particular when it is the first recipe of the pass), `lint` aborts with
an unhandled `NameError` instead of skipping silently.  (If an earlier
recipe has already bound the variable, the stale binding is read instead
and no error occurs — see the counterexample.) -/
theorem zero_variant_nameerror_amended (env : LintEnv) (pre post : List Check)
    (c : Check) (skipOf : String → List String) (r : String)
    (rest : List String) (obj : RecipeData)
    (hload : env.loadRecipe r = Except.ok obj)
    (hmeta : metasOf env r = Except.ok [])
    (hpre : ∀ c' ∈ pre, skipMem (skipOf r) [] c'.name = false ∧
      ∃ p, c'.run obj [] = Except.ok p)
    (hskip : skipMem (skipOf r) [] c.name = true) :
    lintLoop env (pre ++ c :: post) skipOf (r :: rest) Option.none =
      Except.error LintAbort.nameError ∧
    ∀ recipes exclude commit, sortRecipes recipes = r :: rest →
      skipOf = skipDict commit exclude recipes →
      lintHits env recipes exclude (pre ++ c :: post) commit =
        Except.error LintAbort.nameError ∧
      lint env recipes exclude (pre ++ c :: post) commit =
        Except.error LintAbort.nameError := by
  have hone : lintOne env (pre ++ c :: post) (skipOf r) r Option.none =
      Except.error LintAbort.nameError := by
    unfold lintOne
    rw [hload, hmeta]
    simp only [List.foldl_nil]
    rw [runChecks_nameError hpre hskip]
  have hloop : lintLoop env (pre ++ c :: post) skipOf (r :: rest)
      Option.none = Except.error LintAbort.nameError :=
    lintLoop_error_cons hone
  refine ⟨hloop, ?_⟩
  intro recipes exclude commit hsort hskipOf
  have hh : lintHits env recipes exclude (pre ++ c :: post) commit =
      Except.error LintAbort.nameError := by
    unfold lintHits
    rw [← hskipOf, hsort, hloop]
    rfl
  exact ⟨hh, by unfold lint; rw [hh]; rfl⟩

/-- C10 witness: a single-recipe pass with zero variants and a global
exclude naming a registered check aborts with `NameError`. -/
theorem zero_variant_nameerror_amended_witness :
    envZero.loadRecipe "a" = Except.ok ⟨"a"⟩ ∧
    metasOf envZero "a" = Except.ok [] ∧
    skipMem (skipDict "" (some ["target_check"]) ["a"] "a") []
      "target_check" = true ∧
    lint envZero ["a"] (some ["target_check"]) [checkTarget] "" =
      Except.error LintAbort.nameError :=
  ⟨by decide, by decide, by decide, by
    have h := ((zero_variant_nameerror_amended envZero [] [] checkTarget
      (skipDict "" (some ["target_check"]) ["a"]) "a" [] ⟨"a"⟩
      (by decide) (by decide)
      (by intro c' hc'; exact absurd hc' (List.not_mem_nil c'))
      (by decide)).2 ["a"] (some ["target_check"]) "" (by decide) rfl).2
    exact h⟩

/-- C10 counterexample: the claim as stated fails when an earlier recipe
has already bound the `persistent` variable — recipe `b` has zero variants
and a globally excluded check, yet the pass completes normally. -/
theorem zero_variant_nameerror_counterexample :
    envMixed.loadRecipe "b" = Except.ok ⟨"b"⟩ ∧
    metasOf envMixed "b" = Except.ok [] ∧
    skipMem (skipDict "" (some ["target_check"]) ["a", "b"] "b") []
      "target_check" = true ∧
    lint envMixed ["a", "b"] (some ["target_check"]) [checkTarget] "" =
      Except.ok Option.none := by
  refine ⟨by decide, by decide, by decide, by decide⟩

/-! ### C4 -/

theorem persistent_isSome : ∀ (ms : List Meta) (ps : Option (List String)),
    ms ≠ [] → (ms.foldl (fun _ m => some m.skipLints) ps).isSome = true := by
  intro ms
  induction ms with
  | nil => intro ps h; exact absurd rfl h
  | cons m rest ih =>
    intro ps _
    rw [List.foldl_cons]
    cases rest with
    | nil => rfl
    | cons m' rest' => exact ih (some m.skipLints) (by simp)

theorem lintLoop_silent {env : LintEnv} {reg : List Check}
    {skipOf : String → List String} :
    ∀ (rs : List String) (ps : Option (List String)),
      (∀ r ∈ rs, ∃ obj, env.loadRecipe r = Except.ok obj) →
      (∀ r ∈ rs, ∃ ms, metasOf env r = Except.ok ms) →
      (∀ c ∈ reg, ∀ obj ms, c.run obj ms = Except.ok []) →
      (∀ r ∈ rs, metasOf env r = Except.ok [] →
        ∀ c ∈ reg, skipMem (skipOf r) [] c.name = false) →
      ∃ psN, lintLoop env reg skipOf rs ps = Except.ok ([], psN) := by
  intro rs
  induction rs with
  | nil => intro ps _ _ _ _; exact ⟨ps, rfl⟩
  | cons r rest ih =>
    intro ps hload hmeta hrun hskip
    obtain ⟨obj, hobj⟩ := hload r (List.mem_cons_self r rest)
    obtain ⟨ms, hms⟩ := hmeta r (List.mem_cons_self r rest)
    have hone : lintOne env reg (skipOf r) r ps =
        Except.ok ([], ms.foldl (fun _ m => some m.skipLints) ps) := by
      have hns : (ms.foldl (fun _ m => some m.skipLints) ps).isSome = true ∨
          ∀ c ∈ reg, skipMem (skipOf r) ms c.name = false := by
        by_cases hmsnil : ms = []
        · subst hmsnil
          exact Or.inr fun c hc =>
            hskip r (List.mem_cons_self r rest) hms c hc
        · exact Or.inl (persistent_isSome ms ps hmsnil)
      unfold lintOne
      rw [hobj, hms]
      simp only
      rw [runChecks_silent (fun c hc => hrun c hc obj ms) hns]
    obtain ⟨psN, hrest⟩ := ih (ms.foldl (fun _ m => some m.skipLints) ps)
      (fun x hx => hload x (List.mem_cons_of_mem r hx))
      (fun x hx => hmeta x (List.mem_cons_of_mem r hx))
      hrun
      (fun x hx => hskip x (List.mem_cons_of_mem r hx))
    refine ⟨psN, ?_⟩
    rw [lintLoop_cons, hone]
    simp only
    rw [hrest]
    simp

/-- C4 amended: the clean sentinel (`None`) is returned exactly when the
pass completes with an empty diagnostic sequence, and it is distinct from
every populated table; a pass in which every recipe loads and parses, every
check returns no finding, and no skip directive targets a zero-variant
recipe (which would trigger the `NameError` of the zero-variant bug)
returns the clean sentinel. -/
theorem clean_sentinel_amended (env : LintEnv) (recipes : List String)
    (exclude : Option (List String)) (reg : List Check) (commit : String) :
    (lint env recipes exclude reg commit = Except.ok Option.none ↔
      lintHits env recipes exclude reg commit = Except.ok []) ∧
    (∀ rep : Report, (some rep : Option Report) ≠ Option.none) ∧
    ((∀ r ∈ recipes, ∃ obj, env.loadRecipe r = Except.ok obj) →
     (∀ r ∈ recipes, ∃ ms, metasOf env r = Except.ok ms) →
     (∀ c ∈ reg, ∀ obj ms, c.run obj ms = Except.ok []) →
     (∀ r ∈ recipes, metasOf env r = Except.ok [] →
       ∀ c ∈ reg, skipMem (skipDict commit exclude recipes r) [] c.name =
         false) →
     lint env recipes exclude reg commit = Except.ok Option.none) := by
  refine ⟨?_, fun rep => by simp, ?_⟩
  · unfold lint
    cases h : lintHits env recipes exclude reg commit with
    | error a => simp [Except.map]
    | ok hits =>
      simp only [Except.map, Except.ok.injEq]
      cases hits with
      | nil => simp [buildReport]
      | cons hit rest => simp [buildReport]
  · intro hload hmeta hrun hskip
    obtain ⟨psN, hloop⟩ : ∃ psN,
        lintLoop env reg (skipDict commit exclude recipes)
          (sortRecipes recipes) Option.none = Except.ok ([], psN) :=
      lintLoop_silent (sortRecipes recipes)
        Option.none
      (fun r hr => hload r (by
        have : r ∈ recipes := by
          simpa [sortRecipes] using hr
        exact this))
      (fun r hr => hmeta r (by simpa [sortRecipes] using hr))
      hrun
      (fun r hr => hskip r (by simpa [sortRecipes] using hr))
    unfold lint lintHits
    rw [hloop]
    rfl

/-- C4 witness: a two-recipe pass with a silent check returns the clean
sentinel. -/
theorem clean_sentinel_amended_witness :
    metasOf envOk "a" = Except.ok [⟨["persisted_skip"]⟩] ∧
    lint envOk ["b", "a"] Option.none [checkQuiet] "" =
      Except.ok Option.none :=
  ⟨by decide,
   (clean_sentinel_amended envOk ["b", "a"] Option.none [checkQuiet] "").2.2
     (by
       intro r hr
       exact ⟨⟨r⟩, rfl⟩)
     (by
       intro r hr
       rcases List.mem_cons.mp hr with rfl | hr'
       · exact ⟨[⟨["persisted_skip"]⟩], rfl⟩
       · rcases List.mem_singleton.mp hr' with rfl
         exact ⟨[⟨["persisted_skip"]⟩], rfl⟩)
     (by
       intro c hc obj ms
       rcases List.mem_singleton.mp hc with rfl
       rfl)
     (by
       intro r hr hzero
       rcases List.mem_cons.mp hr with rfl | hr'
       · exact absurd hzero (by decide)
       · rcases List.mem_singleton.mp hr' with rfl
         exact absurd hzero (by decide))⟩

/-- C4 counterexample: a pass in which the only recipe loads and parses
and the only check returns no finding, yet `lint` aborts with `NameError`
(zero variants plus a global exclude) instead of producing the clean
sentinel. -/
theorem clean_sentinel_counterexample :
    envZero.loadRecipe "a" = Except.ok ⟨"a"⟩ ∧
    metasOf envZero "a" = Except.ok [] ∧
    checkTarget.run ⟨"a"⟩ [] = Except.ok [] ∧
    lint envZero ["a"] (some ["target_check"]) [checkTarget] "" =
      Except.error LintAbort.nameError := by
  refine ⟨by decide, by decide, by decide, by decide⟩

/-! ### C1 -/

theorem lintLoop_skip_no_hit {env : LintEnv} {reg : List Check}
    {skipOf : String → List String} {r c : String}
    (Hskip : ∀ metas, metasOf env r = Except.ok metas →
      skipMem (skipOf r) metas c = true) :
    ∀ (rs : List String) (ps ps' : Option (List String)) (hits : List Hit),
      lintLoop env reg skipOf rs ps = Except.ok (hits, ps') →
      ∀ hit ∈ hits, hit.recipe = r → hit.check = c →
        hit.severity = some "ERROR" := by
  intro rs
  induction rs with
  | nil =>
    intro ps ps' hits h
    unfold lintLoop at h
    simp only [Except.ok.injEq, Prod.mk.injEq] at h
    intro hit hmem
    rw [← h.1] at hmem
    exact absurd hmem (List.not_mem_nil hit)
  | cons r1 rest ih =>
    intro ps ps' hits h
    rw [lintLoop_cons] at h
    cases hone : lintOne env reg (skipOf r1) r1 ps with
    | error a => rw [hone] at h; exact absurd h (by simp)
    | ok pr =>
      obtain ⟨hits1, ps1⟩ := pr
      rw [hone] at h
      simp only at h
      cases hloop : lintLoop env reg skipOf rest ps1 with
      | error a => rw [hloop] at h; exact absurd h (by simp)
      | ok pr2 =>
        obtain ⟨more, ps2⟩ := pr2
        rw [hloop] at h
        simp only [Except.ok.injEq, Prod.mk.injEq] at h
        intro hit hmem hrec hchk
        rw [← h.1] at hmem
        rcases List.mem_append.mp hmem with h1 | h2
        · have hr1 : hit.recipe = r1 := lintOne_hits_recipe hone hit h1
          have hr1r : r1 = r := by rw [← hr1, hrec]
          subst hr1r
          rcases lintOne_cases hone with ⟨e, _, hh, _⟩ |
            ⟨obj, e, _, _, hh, _⟩ | ⟨obj, metas, _, hms, _, hrc⟩
          · subst hh
            rcases List.mem_singleton.mp h1 with rfl
            rfl
          · subst hh
            rcases List.mem_singleton.mp h1 with rfl
            rfl
          · have hshape := runChecks_hits_shape hrc hit h1
            have := Hskip metas hms
            rw [hchk] at hshape
            rw [this] at hshape
            exact absurd hshape.2.2 (by simp)
        · exact ih ps1 ps2 more hloop hit h2 hrec hchk

/-- C1 amended: if a check name `c` is suppressed for recipe `r` — by the
global exclude list (with `r` in the linted set), by a commit-message
directive naming `(c, r)`, or by `extra/skip-lints` of any of `r`'s loaded
metadata variants — then the diagnostic sequence contains no diagnostic
for `(r, c)` other than the severity-ERROR diagnostics produced by load or
parse failure, which ignore skip directives.  Matching is exact,
case-sensitive string equality. -/
theorem skip_completeness_amended (env : LintEnv) (recipes : List String)
    (exclude : Option (List String)) (reg : List Check) (commit : String)
    (c r : String) (hits : List Hit)
    (hrun : lintHits env recipes exclude reg commit = Except.ok hits)
    (happ : (∃ ex, exclude = some ex ∧ c ∈ ex ∧ r ∈ recipes) ∨
      (c, r) ∈ lintSkipDirectives commit ∨
      (∃ ms m, metasOf env r = Except.ok ms ∧ m ∈ ms ∧ c ∈ m.skipLints)) :
    ∀ hit ∈ hits, hit.recipe = r → hit.check = c →
      hit.severity = some "ERROR" := by
  have Hskip : ∀ metas, metasOf env r = Except.ok metas →
      skipMem (skipDict commit exclude recipes r) metas c = true := by
    intro metas hms
    rcases happ with ⟨ex, hex, hc, hr⟩ | hd | ⟨ms, m, hms', hm, hc⟩
    · exact skipMem_of_contains
        (mem_skipDict.mpr (Or.inr ⟨ex, hex, hc, hr⟩))
    · exact skipMem_of_contains (mem_skipDict.mpr (Or.inl hd))
    · rw [hms'] at hms
      simp only [Except.ok.injEq] at hms
      subst hms
      exact skipMem_of_meta hm hc
  unfold lintHits at hrun
  cases hloop : lintLoop env reg (skipDict commit exclude recipes)
      (sortRecipes recipes) Option.none with
  | error a => rw [hloop] at hrun; exact absurd hrun (by simp [Except.map])
  | ok pr =>
    obtain ⟨hits0, psN⟩ := pr
    rw [hloop] at hrun
    simp only [Except.map, Except.ok.injEq] at hrun
    subst hrun
    exact lintLoop_skip_no_hit Hskip (sortRecipes recipes) Option.none psN
      hits0 hloop

/-- C1 witness: a commit directive suppresses a check that would otherwise
fire, so the pass is clean. -/
theorem skip_completeness_amended_witness :
    lintHits envOk ["a"] Option.none [checkMsg] "[lint skip has_msg for a]" =
      Except.ok [] ∧
    ("has_msg", "a") ∈
      lintSkipDirectives "[lint skip has_msg for a]" ∧
    ∀ hit ∈ ([] : List Hit), hit.recipe = "a" → hit.check = "has_msg" →
      hit.severity = some "ERROR" :=
  ⟨by decide, by decide,
   skip_completeness_amended envOk ["a"] Option.none [checkMsg]
     "[lint skip has_msg for a]" "has_msg" "a" []
     (by decide) (Or.inr (Or.inl (by decide)))⟩

/-- C1 counterexample: the claim as stated is false — with the registered
check name `load_recipe` in the global exclude list and a recipe that
fails to load, the pass still emits a diagnostic whose recipe/check pair
matches the excluded name. -/
theorem skip_completeness_counterexample :
    "load_recipe" ∈ ["load_recipe"] ∧
    lintHits envLoadFail ["r"] (some ["load_recipe"]) [checkNamedLoad] "" =
      Except.ok [⟨"r", "load_recipe", some "ERROR",
        [("load_recipe", Value.str "cannot load"),
         ("fix", Value.str "cannot load"),
         ("start_line", Value.nat 3), ("end_line", Value.nat 3)]⟩] := by
  refine ⟨by decide, by decide⟩

/-! ### C8 -/

theorem lintLoop_error_fix {env : LintEnv} {reg : List Check}
    {skipOf : String → List String} :
    ∀ (rs : List String) (ps ps' : Option (List String)) (hits : List Hit),
      lintLoop env reg skipOf rs ps = Except.ok (hits, ps') →
      ∀ hit ∈ hits, hit.severity = some "ERROR" →
        (hit.check = "load_recipe" ∨ hit.check = "parse_error") ∧
        ∃ m, lookupPayload hit.check hit.info = some (Value.str m) ∧
          lookupPayload "fix" hit.info = some (Value.str m) := by
  intro rs
  induction rs with
  | nil =>
    intro ps ps' hits h
    unfold lintLoop at h
    simp only [Except.ok.injEq, Prod.mk.injEq] at h
    intro hit hmem
    rw [← h.1] at hmem
    exact absurd hmem (List.not_mem_nil hit)
  | cons r1 rest ih =>
    intro ps ps' hits h
    rw [lintLoop_cons] at h
    cases hone : lintOne env reg (skipOf r1) r1 ps with
    | error a => rw [hone] at h; exact absurd h (by simp)
    | ok pr =>
      obtain ⟨hits1, ps1⟩ := pr
      rw [hone] at h
      simp only at h
      cases hloop : lintLoop env reg skipOf rest ps1 with
      | error a => rw [hloop] at h; exact absurd h (by simp)
      | ok pr2 =>
        obtain ⟨more, ps2⟩ := pr2
        rw [hloop] at h
        simp only [Except.ok.injEq, Prod.mk.injEq] at h
        intro hit hmem hsev
        rw [← h.1] at hmem
        rcases List.mem_append.mp hmem with h1 | h2
        · rcases lintOne_cases hone with ⟨e, _, hh, _⟩ |
            ⟨obj, e, _, _, hh, _⟩ | ⟨obj, metas, _, _, _, hrc⟩
          · subst hh
            rcases List.mem_singleton.mp h1 with rfl
            exact ⟨Or.inl rfl, e.msg, by
              simp [loadErrHit, loadErrPayload, lookupPayload], by
              simp [loadErrHit, loadErrPayload, lookupPayload]⟩
          · subst hh
            rcases List.mem_singleton.mp h1 with rfl
            exact ⟨Or.inr rfl, e.msg, by
              simp [parseErrHit, parseErrPayload, lookupPayload], by
              simp [parseErrHit, parseErrPayload, lookupPayload]⟩
          · have hshape := runChecks_hits_shape hrc hit h1
            rw [hsev] at hshape
            exact absurd hshape.2.1 (by simp)
        · exact ih ps1 ps2 more hloop hit h2 hsev

/-- C8: every ERROR diagnostic of a pass is a `load_recipe` or
`parse_error` diagnostic, and its payload carries the stringified failure
message both under the check-name key and under `fix`. -/
theorem error_fix_field (env : LintEnv) (recipes : List String)
    (exclude : Option (List String)) (reg : List Check) (commit : String)
    (hits : List Hit)
    (hrun : lintHits env recipes exclude reg commit = Except.ok hits) :
    ∀ hit ∈ hits, hit.severity = some "ERROR" →
      (hit.check = "load_recipe" ∨ hit.check = "parse_error") ∧
      ∃ m, lookupPayload hit.check hit.info = some (Value.str m) ∧
        lookupPayload "fix" hit.info = some (Value.str m) := by
  unfold lintHits at hrun
  cases hloop : lintLoop env reg (skipDict commit exclude recipes)
      (sortRecipes recipes) Option.none with
  | error a => rw [hloop] at hrun; exact absurd hrun (by simp [Except.map])
  | ok pr =>
    obtain ⟨hits0, psN⟩ := pr
    rw [hloop] at hrun
    simp only [Except.map, Except.ok.injEq] at hrun
    subst hrun
    exact lintLoop_error_fix (sortRecipes recipes) Option.none psN hits0 hloop

/-- C8 witness: the `load_recipe` diagnostic of a failing recipe carries
`cannot load` both under `load_recipe` and under `fix`. -/
theorem error_fix_field_witness :
    lintHits envLoadFail ["a"] Option.none [] "" =
      Except.ok [loadErrHit "a" ⟨"cannot load", some 3⟩] ∧
    ((loadErrHit "a" ⟨"cannot load", some 3⟩).check = "load_recipe" ∨
      (loadErrHit "a" ⟨"cannot load", some 3⟩).check = "parse_error") ∧
    ∃ m, lookupPayload (loadErrHit "a" ⟨"cannot load", some 3⟩).check
        (loadErrHit "a" ⟨"cannot load", some 3⟩).info = some (Value.str m) ∧
      lookupPayload "fix" (loadErrHit "a" ⟨"cannot load", some 3⟩).info =
        some (Value.str m) :=
  ⟨by decide,
   (error_fix_field envLoadFail ["a"] Option.none [] ""
     [loadErrHit "a" ⟨"cannot load", some 3⟩] (by decide)
     (loadErrHit "a" ⟨"cannot load", some 3⟩) (by decide) (by decide)).1,
   (error_fix_field envLoadFail ["a"] Option.none [] ""
     [loadErrHit "a" ⟨"cannot load", some 3⟩] (by decide)
     (loadErrHit "a" ⟨"cannot load", some 3⟩) (by decide) (by decide)).2⟩

/-! ### C7 -/

theorem pyCharsLe_refl : ∀ l : List Char, pyCharsLe l l = true := by
  intro l
  induction l with
  | nil => rfl
  | cons c cs ih =>
    simp only [pyCharsLe, Nat.lt_irrefl, if_false]
    exact ih

theorem skipMem_congr {skips1 skips2 : List String}
    (h : ∀ x, x ∈ skips1 ↔ x ∈ skips2) (metas : List Meta) (c : String) :
    skipMem skips1 metas c = skipMem skips2 metas c := by
  unfold skipMem
  have h1 : skips1.contains c = skips2.contains c := by
    show skips1.elem c = skips2.elem c
    rw [List.elem_eq_mem, List.elem_eq_mem]
    exact decide_eq_decide.mpr (h c)
  rw [h1]

theorem runChecks_congr {reg : List Check} {r : String} {obj : RecipeData}
    {metas : List Meta} {skips1 skips2 : List String}
    {ps : Option (List String)} (h : ∀ x, x ∈ skips1 ↔ x ∈ skips2) :
    runChecks reg r obj metas skips1 ps = runChecks reg r obj metas skips2 ps := by
  induction reg with
  | nil => rfl
  | cons c rest ih =>
    unfold runChecks
    rw [skipMem_congr h metas c.name]
    by_cases hsk : skipMem skips2 metas c.name
    · rw [if_pos hsk, if_pos hsk]
      cases ps with
      | none => rfl
      | some l => exact ih
    · rw [if_neg hsk, if_neg hsk]
      cases c.run obj metas with
      | error e => rfl
      | ok payload => rw [ih]

theorem lintLoop_congr {env : LintEnv} {reg : List Check}
    {skipOf1 skipOf2 : String → List String}
    (h : ∀ r x, x ∈ skipOf1 r ↔ x ∈ skipOf2 r) :
    ∀ (rs : List String) (ps : Option (List String)),
      lintLoop env reg skipOf1 rs ps = lintLoop env reg skipOf2 rs ps := by
  intro rs
  induction rs with
  | nil => intro ps; rfl
  | cons r rest ih =>
    intro ps
    have hone : lintOne env reg (skipOf1 r) r ps =
        lintOne env reg (skipOf2 r) r ps := by
      unfold lintOne
      cases env.loadRecipe r with
      | error e => rfl
      | ok obj =>
        cases metasOf env r with
        | error e => rfl
        | ok metas =>
          simp only
          rw [runChecks_congr (h r)]
    rw [lintLoop_cons, lintLoop_cons, hone]
    cases lintOne env reg (skipOf2 r) r ps with
    | error a => rfl
    | ok pr =>
      cases pr
      simp only
      rw [ih]

theorem sortRecipes_perm_eq {recipes1 recipes2 : List String}
    (h : recipes1.Perm recipes2) :
    sortRecipes recipes1 = sortRecipes recipes2 := by
  refine List.eq_of_perm_of_sorted
    (((List.perm_insertionSort PyLeR recipes1).trans h).trans
      (List.perm_insertionSort PyLeR recipes2).symm)
    (List.sorted_insertionSort PyLeR recipes1)
    (List.sorted_insertionSort PyLeR recipes2)

theorem lintLoop_sorted {env : LintEnv} {reg : List Check}
    {skipOf : String → List String} :
    ∀ (rs : List String) (ps ps' : Option (List String)) (hits : List Hit),
      rs.Sorted PyLeR →
      lintLoop env reg skipOf rs ps = Except.ok (hits, ps') →
      hits.Pairwise fun h1 h2 => PyLeR h1.recipe h2.recipe := by
  intro rs
  induction rs with
  | nil =>
    intro ps ps' hits _ h
    unfold lintLoop at h
    simp only [Except.ok.injEq, Prod.mk.injEq] at h
    rw [← h.1]
    exact List.Pairwise.nil
  | cons r rest ih =>
    intro ps ps' hits hsort h
    rw [lintLoop_cons] at h
    cases hone : lintOne env reg (skipOf r) r ps with
    | error a => rw [hone] at h; exact absurd h (by simp)
    | ok pr =>
      obtain ⟨hits1, ps1⟩ := pr
      rw [hone] at h
      simp only at h
      cases hloop : lintLoop env reg skipOf rest ps1 with
      | error a => rw [hloop] at h; exact absurd h (by simp)
      | ok pr2 =>
        obtain ⟨more, ps2⟩ := pr2
        rw [hloop] at h
        simp only [Except.ok.injEq, Prod.mk.injEq] at h
        rw [← h.1]
        rw [List.pairwise_append]
        rcases List.sorted_cons.mp hsort with ⟨hr, hrest⟩
        refine ⟨?_, ih ps1 ps2 more hrest hloop, ?_⟩
        · have hall : ∀ hit ∈ hits1, hit.recipe = r :=
            lintOne_hits_recipe hone
          exact List.pairwise_of_forall_mem_list fun a ha b hb => by
            show pyLe a.recipe b.recipe = true
            rw [hall a ha, hall b hb]
            exact pyCharsLe_refl r.data
        · intro a ha b hb
          rw [lintOne_hits_recipe hone a ha]
          obtain ⟨r', hr', hrec⟩ := lintLoop_hits_mem hloop b hb
          rw [hrec]
          exact hr r' hr'

/-- C7: two runs on permutations of the same recipe list (with identical
environment, registry, excludes and commit message) produce identical
results, because recipes are processed in lexicographic order of their
identifiers; consequently the diagnostic sequence is ordered by recipe. -/
theorem determinism_and_order (env : LintEnv) (exclude : Option (List String))
    (reg : List Check) (commit : String) (recipes1 recipes2 : List String)
    (hperm : recipes1.Perm recipes2) :
    lintHits env recipes1 exclude reg commit =
      lintHits env recipes2 exclude reg commit ∧
    lint env recipes1 exclude reg commit =
      lint env recipes2 exclude reg commit ∧
    (∀ hits, lintHits env recipes1 exclude reg commit = Except.ok hits →
      hits.Pairwise fun h1 h2 => PyLeR h1.recipe h2.recipe) := by
  have hmem : ∀ r x, x ∈ skipDict commit exclude recipes1 r ↔
      x ∈ skipDict commit exclude recipes2 r := by
    intro r x
    rw [mem_skipDict, mem_skipDict]
    constructor
    · rintro (hd | ⟨ex, hex, hc, hr⟩)
      · exact Or.inl hd
      · exact Or.inr ⟨ex, hex, hc, hperm.mem_iff.mp hr⟩
    · rintro (hd | ⟨ex, hex, hc, hr⟩)
      · exact Or.inl hd
      · exact Or.inr ⟨ex, hex, hc, hperm.mem_iff.mpr hr⟩
  have hh : lintHits env recipes1 exclude reg commit =
      lintHits env recipes2 exclude reg commit := by
    unfold lintHits
    rw [sortRecipes_perm_eq hperm, lintLoop_congr hmem]
  refine ⟨hh, by unfold lint; rw [hh], ?_⟩
  intro hits hrun
  unfold lintHits at hrun
  cases hloop : lintLoop env reg (skipDict commit exclude recipes1)
      (sortRecipes recipes1) Option.none with
  | error a => rw [hloop] at hrun; exact absurd hrun (by simp [Except.map])
  | ok pr =>
    obtain ⟨hits0, psN⟩ := pr
    rw [hloop] at hrun
    simp only [Except.map, Except.ok.injEq] at hrun
    subst hrun
    exact lintLoop_sorted (sortRecipes recipes1) Option.none psN hits0
      (List.sorted_insertionSort PyLeR recipes1) hloop

/-- C7 witness: the two orders of a two-recipe list give identical output,
and the diagnostic sequence is sorted by recipe. -/
theorem determinism_and_order_witness :
    (["b", "a"] : List String).Perm ["a", "b"] ∧
    lintHits envOk ["b", "a"] Option.none [checkMsg] "" =
      lintHits envOk ["a", "b"] Option.none [checkMsg] "" ∧
    lintHits envOk ["b", "a"] Option.none [checkMsg] "" = Except.ok
      [⟨"a", "has_msg", Option.none, [("msg", Value.str "x")]⟩,
       ⟨"b", "has_msg", Option.none, [("msg", Value.str "x")]⟩] ∧
    List.Pairwise (fun h1 h2 : Hit => PyLeR h1.recipe h2.recipe)
      [⟨"a", "has_msg", Option.none, [("msg", Value.str "x")]⟩,
       ⟨"b", "has_msg", Option.none, [("msg", Value.str "x")]⟩] :=
  ⟨by decide,
   (determinism_and_order envOk Option.none [checkMsg] "" ["b", "a"]
     ["a", "b"] (by decide)).1,
   by decide,
   (determinism_and_order envOk Option.none [checkMsg] "" ["b", "a"]
     ["a", "b"] (by decide)).2.2
     [⟨"a", "has_msg", Option.none, [("msg", Value.str "x")]⟩,
      ⟨"b", "has_msg", Option.none, [("msg", Value.str "x")]⟩]
     (by decide)⟩

/-! ### C3 -/

theorem mem_addKey {acc : List String} {k x : String} :
    x ∈ addKey acc k ↔ x ∈ acc ∨ x = k := by
  unfold addKey
  by_cases h : acc.contains k
  · rw [if_pos h]
    constructor
    · exact Or.inl
    · rintro (hx | rfl)
      · exact hx
      · exact List.elem_iff.mp h
  · rw [if_neg h]
    simp

theorem addKey_nodup {acc : List String} {k : String} (h : acc.Nodup) :
    (addKey acc k).Nodup := by
  unfold addKey
  by_cases hc : acc.contains k
  · rw [if_pos hc]
    exact h
  · rw [if_neg hc]
    have hk : k ∉ acc := fun hm => hc (List.elem_iff.mpr hm)
    simp [List.nodup_append, h, hk]

theorem mem_addKeys : ∀ (p : Payload) (acc : List String) (x : String),
    x ∈ addKeys acc p ↔ x ∈ acc ∨ ∃ v, (x, v) ∈ p := by
  intro p
  induction p with
  | nil => intro acc x; simp [addKeys]
  | cons kv rest ih =>
    intro acc x
    obtain ⟨k, v⟩ := kv
    show x ∈ addKeys (addKey acc k) rest ↔ _
    rw [ih (addKey acc k) x, mem_addKey]
    constructor
    · rintro ((hx | rfl) | ⟨w, hw⟩)
      · exact Or.inl hx
      · exact Or.inr ⟨v, List.mem_cons_self _ _⟩
      · exact Or.inr ⟨w, List.mem_cons_of_mem _ hw⟩
    · rintro (hx | ⟨w, hw⟩)
      · exact Or.inl (Or.inl hx)
      · rcases List.mem_cons.mp hw with heq | hm
        · simp only [Prod.mk.injEq] at heq
          exact Or.inl (Or.inr heq.1)
        · exact Or.inr ⟨w, hm⟩

theorem addKeys_nodup : ∀ (p : Payload) (acc : List String),
    acc.Nodup → (addKeys acc p).Nodup := by
  intro p
  induction p with
  | nil => intro acc h; exact h
  | cons kv rest ih =>
    intro acc h
    exact ih (addKey acc kv.1) (addKey_nodup h)

theorem payloadKeys_aux_mem : ∀ (hits : List Hit) (acc : List String)
    (x : String),
    x ∈ hits.foldl (fun acc h => addKeys acc h.info) acc ↔
      x ∈ acc ∨ ∃ h ∈ hits, ∃ v, (x, v) ∈ h.info := by
  intro hits
  induction hits with
  | nil => intro acc x; simp
  | cons hit rest ih =>
    intro acc x
    rw [List.foldl_cons, ih (addKeys acc hit.info) x, mem_addKeys]
    constructor
    · rintro ((hx | ⟨v, hv⟩) | ⟨h, hh, v, hv⟩)
      · exact Or.inl hx
      · exact Or.inr ⟨hit, List.mem_cons_self _ _, v, hv⟩
      · exact Or.inr ⟨h, List.mem_cons_of_mem _ hh, v, hv⟩
    · rintro (hx | ⟨h, hh, v, hv⟩)
      · exact Or.inl (Or.inl hx)
      · rcases List.mem_cons.mp hh with rfl | hm
        · exact Or.inl (Or.inr ⟨v, hv⟩)
        · exact Or.inr ⟨h, hm, v, hv⟩

theorem payloadKeys_mem (hits : List Hit) (x : String) :
    x ∈ payloadKeys hits ↔ ∃ h ∈ hits, ∃ v, (x, v) ∈ h.info := by
  unfold payloadKeys
  rw [payloadKeys_aux_mem]
  simp

theorem payloadKeys_nodup (hits : List Hit) : (payloadKeys hits).Nodup := by
  unfold payloadKeys
  have aux : ∀ (hs : List Hit) (acc : List String), acc.Nodup →
      (hs.foldl (fun acc h => addKeys acc h.info) acc).Nodup := by
    intro hs
    induction hs with
    | nil => intro acc h; exact h
    | cons hit rest ih =>
      intro acc h
      exact ih (addKeys acc hit.info) (addKeys_nodup hit.info acc h)
  exact aux hits [] List.nodup_nil

theorem hitRow_cell (keys : List String) (h : Hit) (k : String)
    (hk : k ∈ keys) :
    (hitRow keys h)[3 + keys.indexOf k]? =
      some (match lookupPayload k h.info with
            | some v => Cell.val v
            | Option.none => Cell.null) := by
  unfold hitRow
  have hidx : keys.indexOf k < keys.length := List.indexOf_lt_length.mpr hk
  rw [List.getElem?_append_right (by simp)]
  simp only [List.length_append, List.length_cons, List.length_nil]
  rw [show 3 + keys.indexOf k - 3 = keys.indexOf k from by omega]
  rw [List.getElem?_map, List.getElem?_eq_getElem hidx]
  rw [List.getElem_indexOf hidx]
  rfl

/-- C3 amended: when diagnostics exist, `lint` returns a table with one
row per diagnostic whose columns are `recipe`, `check`, the retained raw
`info` column, and then one column per distinct payload key in first-seen
order; the cell of a payload-key column is null when the key is absent
from that row's payload. -/
theorem report_shape_amended (env : LintEnv) (recipes : List String)
    (exclude : Option (List String)) (reg : List Check) (commit : String)
    (hits : List Hit)
    (hrun : lintHits env recipes exclude reg commit = Except.ok hits)
    (hne : hits ≠ []) :
    lint env recipes exclude reg commit = Except.ok (some
      { columns := ["recipe", "check", "info"] ++ payloadKeys hits,
        rows := hits.map (hitRow (payloadKeys hits)) }) ∧
    (payloadKeys hits).Nodup ∧
    (∀ k, k ∈ payloadKeys hits ↔ ∃ h ∈ hits, ∃ v, (k, v) ∈ h.info) ∧
    (hits.map (hitRow (payloadKeys hits))).length = hits.length ∧
    (∀ h ∈ hits, ∀ k ∈ payloadKeys hits,
      (hitRow (payloadKeys hits) h)[3 + (payloadKeys hits).indexOf k]? =
        some (match lookupPayload k h.info with
              | some v => Cell.val v
              | Option.none => Cell.null)) := by
  refine ⟨?_, payloadKeys_nodup hits, payloadKeys_mem hits, by simp,
    fun h _ k hk => hitRow_cell (payloadKeys hits) h k hk⟩
  unfold lint
  rw [hrun]
  simp only [Except.map]
  unfold buildReport
  rw [if_neg (by simpa using hne)]

/-- C3 counterexample: the claim as stated is false — the returned table
keeps the raw `info` column between `check` and the payload-key columns,
so its column list is not `recipe`, `check`, payload keys alone. -/
theorem report_shape_counterexample :
    lint envOk ["r"] Option.none [checkMsg] "" = Except.ok (some
      { columns := ["recipe", "check", "info", "msg"],
        rows := [[Cell.val (Value.str "r"), Cell.val (Value.str "has_msg"),
                  Cell.obj [("msg", Value.str "x")],
                  Cell.val (Value.str "x")]] }) ∧
    (["recipe", "check", "info", "msg"] : List String) ≠
      ["recipe", "check", "msg"] := by
  refine ⟨by decide, by decide⟩

/-- C3 witness: the amended shape at a concrete one-diagnostic pass. -/
theorem report_shape_amended_witness :
    lintHits envOk ["r"] Option.none [checkMsg] "" = Except.ok
      [⟨"r", "has_msg", Option.none, [("msg", Value.str "x")]⟩] ∧
    lint envOk ["r"] Option.none [checkMsg] "" = Except.ok (some
      { columns := ["recipe", "check", "info"] ++ payloadKeys
          [⟨"r", "has_msg", Option.none, [("msg", Value.str "x")]⟩],
        rows := [⟨"r", "has_msg", Option.none,
            [("msg", Value.str "x")]⟩].map (hitRow (payloadKeys
              [⟨"r", "has_msg", Option.none, [("msg", Value.str "x")]⟩])) }) ∧
    (payloadKeys
      [⟨"r", "has_msg", Option.none, [("msg", Value.str "x")]⟩]).Nodup :=
  ⟨by decide,
   (report_shape_amended envOk ["r"] Option.none [checkMsg] ""
     [⟨"r", "has_msg", Option.none, [("msg", Value.str "x")]⟩]
     (by decide) (by decide)).1,
   (report_shape_amended envOk ["r"] Option.none [checkMsg] ""
     [⟨"r", "has_msg", Option.none, [("msg", Value.str "x")]⟩]
     (by decide) (by decide)).2.1⟩

/-! ### C6 -/

theorem dropWhile_append_cons_of_all (p : Char → Bool) :
    ∀ (xs : List Char) (y : Char) (ys : List Char),
      (∀ c ∈ xs, p c = true) → p y = false →
      List.dropWhile p (xs ++ y :: ys) = y :: ys := by
  intro xs
  induction xs with
  | nil =>
    intro y ys _ hy
    simp only [List.nil_append]
    rw [List.dropWhile_cons, hy]
    simp
  | cons x xs' ih =>
    intro y ys hxs hy
    rw [List.cons_append, List.dropWhile_cons,
      hxs x (List.mem_cons_self x xs')]
    simp only [if_true]
    exact ih y ys (fun c hc => hxs c (List.mem_cons_of_mem x hc)) hy

theorem takeWhile_append_cons_of_all (p : Char → Bool) :
    ∀ (xs : List Char) (y : Char) (ys : List Char),
      (∀ c ∈ xs, p c = true) → p y = false →
      List.takeWhile p (xs ++ y :: ys) = xs := by
  intro xs
  induction xs with
  | nil =>
    intro y ys _ hy
    simp only [List.nil_append]
    rw [List.takeWhile_cons, hy]
    simp
  | cons x xs' ih =>
    intro y ys hxs hy
    rw [List.cons_append, List.takeWhile_cons,
      hxs x (List.mem_cons_self x xs')]
    simp only [if_true]
    rw [ih y ys (fun c hc => hxs c (List.mem_cons_of_mem x hc)) hy]

theorem stripLit_self : ∀ (l cs : List Char), stripLit l (l ++ cs) = some cs := by
  intro l
  induction l with
  | nil => intro cs; rfl
  | cons x xs ih =>
    intro cs
    show stripLit (x :: xs) (x :: (xs ++ cs)) = some cs
    unfold stripLit
    rw [if_pos rfl]
    exact ih cs

theorem tryClose_close {ws suffix : List Char}
    (hws : ∀ c ∈ ws, isSpaceChar c = true) :
    tryClose (ws ++ ']' :: suffix) = some suffix := by
  unfold tryClose
  rw [dropWhile_append_cons_of_all isSpaceChar ws ']' suffix hws (by decide)]
  simp

theorem tryClose_nonspace : ∀ (r : List Char), r ≠ [] →
    (∀ c ∈ r, c ≠ ']') → (∃ c ∈ r, isSpaceChar c = false) →
    ∀ rest, tryClose (r ++ rest) = Option.none := by
  intro r
  induction r with
  | nil => intro h; exact absurd rfl h
  | cons c r' ih =>
    intro _ hnb hex rest
    unfold tryClose
    rw [List.cons_append, List.dropWhile_cons]
    by_cases hsp : isSpaceChar c
    · rw [hsp]
      simp only [if_true]
      have hex' : ∃ x ∈ r', isSpaceChar x = false := by
        obtain ⟨x, hx, hxs⟩ := hex
        rcases List.mem_cons.mp hx with rfl | hx'
        · rw [hsp] at hxs
          exact absurd hxs (by simp)
        · exact ⟨x, hx', hxs⟩
      have hr' : r' ≠ [] := by
        obtain ⟨x, hx, _⟩ := hex'
        intro hnil
        rw [hnil] at hx
        exact absurd hx (List.not_mem_nil x)
      have hrec := ih hr' (fun x hx => hnb x (List.mem_cons_of_mem c hx))
        hex' rest
      unfold tryClose at hrec
      exact hrec
    · rw [Bool.not_eq_true] at hsp
      rw [hsp]
      simp only [Bool.false_eq_true, if_false]
      rw [if_neg (hnb c (List.mem_cons_self c r'))]

theorem scanRecipe_exact : ∀ (r ws2 suffix : List Char),
    (∀ c ∈ r, c ≠ '\n' ∧ c ≠ ']') →
    (∀ c, r.getLast? = some c → isSpaceChar c = false) →
    (∀ c ∈ ws2, isSpaceChar c = true) →
    scanRecipe (r ++ (ws2 ++ (']' :: suffix))) = some (r, suffix) := by
  intro r
  induction r with
  | nil =>
    intro ws2 suffix _ _ hws2
    have h1 : tryClose (ws2 ++ ']' :: suffix) = some suffix :=
      tryClose_close hws2
    simp only [List.nil_append]
    cases hcs : ws2 ++ ']' :: suffix with
    | nil => exact absurd hcs (by simp)
    | cons c cs =>
      rw [hcs] at h1
      unfold scanRecipe
      rw [h1]
  | cons c r' ih =>
    intro ws2 suffix hr hlast hws2
    obtain ⟨lc, hlcs⟩ : ∃ lc, (c :: r').getLast? = some lc :=
      Option.isSome_iff_exists.mp (List.getLast?_isSome.mpr (by simp))
    have htc : tryClose ((c :: r') ++ (ws2 ++ ']' :: suffix)) = Option.none :=
      tryClose_nonspace (c :: r') (by simp)
        (fun x hx => (hr x hx).2)
        ⟨lc, List.mem_of_mem_getLast? hlcs, hlast lc hlcs⟩
        (ws2 ++ ']' :: suffix)
    rw [List.cons_append] at htc ⊢
    unfold scanRecipe
    rw [htc]
    rw [if_neg (by
      have := (hr c (List.mem_cons_self c r')).1
      simpa using this)]
    rw [ih ws2 suffix (fun x hx => hr x (List.mem_cons_of_mem c hx))
      (by
        intro x hx
        apply hlast
        cases r' with
        | nil => exact absurd hx (by simp)
        | cons b l => rw [List.getLast?_cons_cons]; exact hx)
      hws2]

theorem matchDirective_exact (ws1 ident r ws2 suffix : List Char)
    (hws1 : ∀ c ∈ ws1, isSpaceChar c = true)
    (hident : ident ≠ []) (hword : ∀ c ∈ ident, isWordChar c = true)
    (hr : ∀ c ∈ r, c ≠ '\n' ∧ c ≠ ']')
    (hlast : ∀ c, r.getLast? = some c → isSpaceChar c = false)
    (hws2 : ∀ c ∈ ws2, isSpaceChar c = true) :
    matchDirective ('[' :: (ws1 ++ ("lint skip ".data ++ (ident ++
        (" for ".data ++ (r ++ (ws2 ++ (']' :: suffix)))))))) =
      some ((ident.asString, r.asString), suffix) := by
  show ((stripLit "lint skip ".data (List.dropWhile isSpaceChar (ws1 ++
      ("lint skip ".data ++ (ident ++ (" for ".data ++ (r ++ (ws2 ++
        (']' :: suffix))))))))).bind fun cs2 =>
      (wordPlus cs2).bind fun fr =>
      (stripLit " for ".data fr.2).bind fun cs3 =>
      (scanRecipe cs3).map fun rr => ((fr.1.asString, rr.1.asString), rr.2)) =
    some ((ident.asString, r.asString), suffix)
  have hdw : List.dropWhile isSpaceChar (ws1 ++ ("lint skip ".data ++ (ident ++
      (" for ".data ++ (r ++ (ws2 ++ (']' :: suffix))))))) =
      "lint skip ".data ++ (ident ++ (" for ".data ++ (r ++
        (ws2 ++ (']' :: suffix))))) := by
    have := dropWhile_append_cons_of_all isSpaceChar ws1 'l'
      ("int skip ".data ++ (ident ++ (" for ".data ++ (r ++
        (ws2 ++ (']' :: suffix)))))) hws1 (by decide)
    rw [show ws1 ++ ('l' :: ("int skip ".data ++ (ident ++ (" for ".data ++
        (r ++ (ws2 ++ (']' :: suffix))))))) = ws1 ++ ("lint skip ".data ++
        (ident ++ (" for ".data ++ (r ++ (ws2 ++ (']' :: suffix)))))) from
      rfl] at this
    rw [this]
    rfl
  rw [hdw, stripLit_self "lint skip ".data _]
  simp only [Option.some_bind]
  have hwp : wordPlus (ident ++ (" for ".data ++ (r ++ (ws2 ++
      (']' :: suffix))))) = some (ident, " for ".data ++ (r ++ (ws2 ++
        (']' :: suffix)))) := by
    unfold wordPlus
    have htw := takeWhile_append_cons_of_all isWordChar ident ' '
      ("for ".data ++ (r ++ (ws2 ++ (']' :: suffix)))) hword (by decide)
    have hdw2 := dropWhile_append_cons_of_all isWordChar ident ' '
      ("for ".data ++ (r ++ (ws2 ++ (']' :: suffix)))) hword (by decide)
    rw [show ident ++ (' ' :: ("for ".data ++ (r ++ (ws2 ++
        (']' :: suffix))))) = ident ++ (" for ".data ++ (r ++ (ws2 ++
        (']' :: suffix)))) from rfl] at htw hdw2
    rw [htw, hdw2]
    rw [if_neg (by simp [hident])]
    rfl
  rw [hwp]
  simp only [Option.some_bind]
  rw [stripLit_self " for ".data _]
  simp only [Option.some_bind]
  rw [scanRecipe_exact r ws2 suffix hr hlast hws2]
  rfl

theorem findDirectives_directive (ws1 ident r ws2 suffix : List Char)
    (hws1 : ∀ c ∈ ws1, isSpaceChar c = true)
    (hident : ident ≠ []) (hword : ∀ c ∈ ident, isWordChar c = true)
    (hr : ∀ c ∈ r, c ≠ '\n' ∧ c ≠ ']')
    (hlast : ∀ c, r.getLast? = some c → isSpaceChar c = false)
    (hws2 : ∀ c ∈ ws2, isSpaceChar c = true) :
    findDirectives ('[' :: (ws1 ++ ("lint skip ".data ++ (ident ++
        (" for ".data ++ (r ++ (ws2 ++ (']' :: suffix)))))))) =
      (ident.asString, r.asString) :: findDirectives suffix := by
  rw [findDirectives_step,
    matchDirective_exact ws1 ident r ws2 suffix hws1 hident hword hr hlast hws2]

theorem stripLit_inv : ∀ {l cs rest : List Char},
    stripLit l cs = some rest → cs = l ++ rest := by
  intro l
  induction l with
  | nil =>
    intro cs rest h
    cases h
    rfl
  | cons x xs ih =>
    intro cs rest h
    cases cs with
    | nil => exact absurd h (by simp [stripLit])
    | cons c cs' =>
      unfold stripLit at h
      by_cases hc : c = x
      · rw [if_pos hc] at h
        rw [List.cons_append, ← ih h, hc]
      · rw [if_neg hc] at h
        exact absurd h (by simp)

theorem tryClose_inv {cs rest : List Char} (h : tryClose cs = some rest) :
    ∃ ws, cs = ws ++ ']' :: rest ∧ ∀ c ∈ ws, isSpaceChar c = true := by
  unfold tryClose at h
  cases hd : cs.dropWhile isSpaceChar with
  | nil => rw [hd] at h; exact absurd h (by simp)
  | cons c rest' =>
    rw [hd] at h
    simp only at h
    by_cases hc : c = ']'
    · rw [if_pos hc] at h
      cases h
      subst hc
      refine ⟨cs.takeWhile isSpaceChar, ?_,
        fun x hx => List.mem_takeWhile_imp hx⟩
      conv_lhs => rw [← List.takeWhile_append_dropWhile isSpaceChar cs]
      rw [hd]
    · rw [if_neg hc] at h
      exact absurd h (by simp)

theorem scanRecipe_inv : ∀ {cs r rest : List Char},
    scanRecipe cs = some (r, rest) →
    (∃ ws, cs = r ++ (ws ++ (']' :: rest)) ∧
      (∀ c ∈ ws, isSpaceChar c = true)) ∧ ∀ c ∈ r, c ≠ '\n' := by
  intro cs
  induction cs with
  | nil => intro r rest h; simp [scanRecipe] at h
  | cons c cs' ih =>
    intro r rest h
    unfold scanRecipe at h
    cases htc : tryClose (c :: cs') with
    | some rest' =>
      rw [htc] at h
      cases h
      obtain ⟨ws, hdec, hws⟩ := tryClose_inv htc
      exact ⟨⟨ws, by simpa using hdec, hws⟩, by simp⟩
    | none =>
      rw [htc] at h
      by_cases hc : c = '\n'
      · simp [hc] at h
      · simp only [hc, if_false] at h
        cases hsr : scanRecipe cs' with
        | none => rw [hsr] at h; exact absurd h (by simp)
        | some pr =>
          obtain ⟨r', rest''⟩ := pr
          rw [hsr] at h
          simp only [Option.some.injEq, Prod.mk.injEq] at h
          obtain ⟨hr, hrest⟩ := h
          subst hrest
          obtain ⟨⟨ws, hdec, hws⟩, hnl⟩ := ih hsr
          refine ⟨⟨ws, ?_, hws⟩, ?_⟩
          · rw [← hr, List.cons_append, hdec]
          · intro x hx
            rw [← hr] at hx
            rcases List.mem_cons.mp hx with rfl | hx'
            · exact hc
            · exact hnl x hx'

theorem wordPlus_inv {cs f fr : List Char} (h : wordPlus cs = some (f, fr)) :
    cs = f ++ fr ∧ f ≠ [] ∧ ∀ c ∈ f, isWordChar c = true := by
  unfold wordPlus at h
  by_cases he : (cs.takeWhile isWordChar).isEmpty
  · rw [if_pos he] at h
    exact absurd h (by simp)
  · rw [if_neg he] at h
    simp only [Option.some.injEq, Prod.mk.injEq] at h
    obtain ⟨hf, hfr⟩ := h
    subst hf
    subst hfr
    refine ⟨(List.takeWhile_append_dropWhile isWordChar cs).symm, ?_,
      fun x hx => List.mem_takeWhile_imp hx⟩
    intro hnil
    rw [hnil] at he
    exact he rfl

theorem matchDirective_inv {cs : List Char} {f rc : String}
    {rest : List Char} (h : matchDirective cs = some ((f, rc), rest)) :
    ∃ ws1 ident ws2, cs = '[' :: (ws1 ++ ("lint skip ".data ++ (ident ++
        (" for ".data ++ (rc.data ++ (ws2 ++ (']' :: rest))))))) ∧
      (∀ c ∈ ws1, isSpaceChar c = true) ∧ ident ≠ [] ∧
      (∀ c ∈ ident, isWordChar c = true) ∧ f = ident.asString ∧
      (∀ c ∈ ws2, isSpaceChar c = true) ∧ (∀ c ∈ rc.data, c ≠ '\n') := by
  cases cs with
  | nil => exact absurd h (by simp [matchDirective])
  | cons c cs1 =>
    unfold matchDirective at h
    simp only at h
    by_cases hc : c = '['
    · rw [if_pos hc] at h
      rw [Option.bind_eq_some] at h
      obtain ⟨cs2, hsl, h⟩ := h
      rw [Option.bind_eq_some] at h
      obtain ⟨⟨fid, fr⟩, hwp, h⟩ := h
      rw [Option.bind_eq_some] at h
      obtain ⟨cs3, hsl2, h⟩ := h
      rw [Option.map_eq_some'] at h
      obtain ⟨⟨r0, rest0⟩, hsr, hout⟩ := h
      simp only [Prod.mk.injEq] at hout
      obtain ⟨⟨hf, hrc⟩, hrest⟩ := hout
      subst hrest
      have hdec1 : cs1 = cs1.takeWhile isSpaceChar ++
          (cs1.dropWhile isSpaceChar) :=
        (List.takeWhile_append_dropWhile isSpaceChar cs1).symm
      have hdec2 : cs1.dropWhile isSpaceChar = "lint skip ".data ++ cs2 :=
        stripLit_inv hsl
      obtain ⟨hdec3, hfid, hword⟩ := wordPlus_inv hwp
      have hdec4 : fr = " for ".data ++ cs3 := stripLit_inv hsl2
      obtain ⟨⟨ws2, hdec5, hws2⟩, hnl⟩ := scanRecipe_inv hsr
      have hrc' : rc.data = r0 := by
        rw [← hrc]
        rfl
      refine ⟨cs1.takeWhile isSpaceChar, fid, ws2, ?_,
        fun x hx => List.mem_takeWhile_imp hx, hfid, hword, hf.symm, hws2,
        by rw [hrc']; exact hnl⟩
      rw [hc]
      congr 1
      conv_lhs => rw [hdec1]
      rw [hdec2, hdec3, hdec4, hdec5, hrc']
    · rw [if_neg hc] at h
      exact absurd h (by simp)

/-- C6 amended: every text segment of the form `[`, optional whitespace,
`lint skip `, identifier (one or more word characters), ` for `, recipe
text, optional whitespace, `]` yields the pair (identifier, recipe text)
and scanning continues after the bracket, where the recipe text contains
no newline and no closing bracket and does not end in whitespace
(whitespace before the `]` is consumed by the pattern, not captured); and
conversely every directive the extraction produces comes from exactly such
a segment.  The claim's stricter reading — no whitespace after `[`, and
the capture running verbatim up to the bracket including trailing
whitespace — does not hold. -/
theorem directive_extraction_amended :
    (∀ (ws1 ident r ws2 suffix : List Char),
      (∀ c ∈ ws1, isSpaceChar c = true) → ident ≠ [] →
      (∀ c ∈ ident, isWordChar c = true) →
      (∀ c ∈ r, c ≠ '\n' ∧ c ≠ ']') →
      (∀ c, r.getLast? = some c → isSpaceChar c = false) →
      (∀ c ∈ ws2, isSpaceChar c = true) →
      findDirectives ('[' :: (ws1 ++ ("lint skip ".data ++ (ident ++
          (" for ".data ++ (r ++ (ws2 ++ (']' :: suffix)))))))) =
        (ident.asString, r.asString) :: findDirectives suffix) ∧
    (∀ (cs : List Char) (f rc : String) (rest : List Char),
      matchDirective cs = some ((f, rc), rest) →
      ∃ ws1 ident ws2, cs = '[' :: (ws1 ++ ("lint skip ".data ++ (ident ++
          (" for ".data ++ (rc.data ++ (ws2 ++ (']' :: rest))))))) ∧
        (∀ c ∈ ws1, isSpaceChar c = true) ∧ ident ≠ [] ∧
        (∀ c ∈ ident, isWordChar c = true) ∧ f = ident.asString ∧
        (∀ c ∈ ws2, isSpaceChar c = true) ∧ (∀ c ∈ rc.data, c ≠ '\n')) :=
  ⟨fun ws1 ident r ws2 suffix h1 h2 h3 h4 h5 h6 =>
    findDirectives_directive ws1 ident r ws2 suffix h1 h2 h3 h4 h5 h6,
   fun _ _ _ _ h => matchDirective_inv h⟩

/-- C6 counterexample: the claim as stated is false on two counts — a
directive is produced although the text does not contain the literal
pattern `[lint skip ...` (whitespace follows the bracket), and the
captured recipe text drops the whitespace preceding the closing bracket
rather than being verbatim up to the bracket. -/
theorem directive_extraction_counterexample :
    lintSkipDirectives "[ lint skip f for bar ]" = [("f", "bar")] ∧
    lintSkipDirectives "[lint skip f for bar ]" = [("f", "bar")] ∧
    ("f", "bar") ≠ ("f", "bar ") := by
  refine ⟨by decide, by decide, by decide⟩

/-- C6 witness: the amended extraction at a concrete directive with
whitespace after the bracket and before the closing bracket. -/
theorem directive_extraction_amended_witness :
    findDirectives ('[' :: ([' '] ++ ("lint skip ".data ++ (['f'] ++
        (" for ".data ++ (['b', 'a', 'r'] ++ ([' '] ++ (']' :: [])))))))) =
      (['f'].asString, ['b', 'a', 'r'].asString) :: findDirectives [] :=
  (directive_extraction_amended).1 [' '] ['f'] ['b', 'a', 'r'] [' '] []
    (by decide) (by decide) (by decide) (by decide) (by decide) (by decide)

end BiocondaLint
